import Mathlib

/-!
Verification of the `squid` embedded event-log engine against its
natural-language specification.

The Go sources are shallowly embedded: the ordered key-value substrate
(BadgerDB) is modelled as sorted association lists per keyspace, Go strings
as `String`, Go `time.Time` instants as nanoseconds-since-epoch naturals,
ULIDs as their 128-bit natural value (high 48 bits = milliseconds), and
`float64` payload numbers as exact rationals.  Fallible operations return
`Option`/`Except`.  Source references are given on each definition.
-/

namespace Squid

/-- Wall-clock instants, nanoseconds since the Unix epoch (Go `time.Time`
comparisons `Before`/`After` are nanosecond-precision). -/
abbrev Time := Nat

/-- Error kinds of the engine (sentinel errors declared next to the DB
handle in the source). -/
inductive SquidError where
  | closed
  | notFound
  | emptyType
  | invalidQuery
  | tooManyValues
  | canceled
deriving DecidableEq, Repr

/-- Dynamically-typed payload values (`Event.Data` entries, Go
`map[string]any`).  Every Go numeric variant accepted by
`extractNumericValue` (`aggregation.go`) widens to one numeric case,
modelled exactly as a rational. -/
inductive Value where
  | str (s : String)
  | boolean (b : Bool)
  | num (x : ℚ)
  | arr (elems : List Value)
  | obj (fields : List (String × Value))
  | null

/-- One event record (`event.go`).  Go maps become association lists. -/
structure Event where
  id : Nat
  timestamp : Time
  type : String
  tags : List (String × String)
  data : List (String × Value)

/-- `Event.validate` (`event.go`): a non-empty type is mandatory. -/
def Event.validate (e : Event) : Option SquidError :=
  if e.type = "" then some .emptyType else none

/-- Search criteria (`query.go`).  `limit` is a Go `int`; `0` (and, as in
the source, any non-positive value) means no limit. -/
structure Query where
  start : Option Time
  endTime : Option Time
  types : List String
  tags : List (String × String)
  limit : Int
  descending : Bool

/-- `ulidTime` (ULID source file): the instant encoded in a ULID, i.e. its
high 48 bits as milliseconds, at millisecond resolution. -/
def ulidTime (id : Nat) : Time := id / 2 ^ 80 * 1000000

/-- `matchesTimeRange` (`query.go`): the event ID's encoded time must lie
within the inclusive query bounds. -/
def matchesTimeRange (id : Nat) (q : Query) : Bool :=
  !(q.start.any fun s => decide (ulidTime id < s)) &&
  !(q.endTime.any fun e => decide (e < ulidTime id))

/-- Go map indexing `event.Tags[k]`: the zero value `""` when absent. -/
def lookupTag (tags : List (String × String)) (k : String) : String :=
  ((tags.find? fun p => p.1 == k).map Prod.snd).getD ""

/-- `matchesFilters` (`query.go`): type-set membership (when a type filter
is present) and every tag equality. -/
def matchesFilters (e : Event) (q : Query) : Bool :=
  (q.types.isEmpty || q.types.contains e.type) &&
  q.tags.all fun p => lookupTag e.tags p.1 == p.2

/-- The three keyspaces of the substrate (`keys.go`), at the semantic
level: primary records, type-index entries `(type, id)`, tag-index entries
`(key, value, id)`.  Each list models the ordered keyspace under the
corresponding single-byte prefix; well-formed stores keep them in key
order (`StoreWF`). -/
structure Store where
  primary : List (Nat × Event)
  typeIdx : List (String × Nat)
  tagIdx : List (String × String × Nat)

/-- The database handle (`DB` struct): the substrate plus the lifecycle
flag.  The retention goroutine and locks are concurrency machinery outside
this embedding. -/
structure DB where
  store : Store
  closed : Bool

/-- `txn.Get` on the primary keyspace followed by JSON unmarshalling
(values written by the writer always unmarshal). -/
def getPrimary (s : Store) (id : Nat) : Option Event :=
  (s.primary.find? fun p => p.1 == id).map Prod.snd

/-- Candidate ids of a type-index prefix scan, in ascending key order for a
well-formed store (index keys under the prefix sort by trailing ULID). -/
def typeIndexIds (s : Store) (ty : String) : List Nat :=
  (s.typeIdx.filter fun p => p.1 == ty).map Prod.snd

/-- Candidate ids of a tag-index prefix scan, in ascending key order for a
well-formed store. -/
def tagIndexIds (s : Store) (k v : String) : List Nat :=
  (s.tagIdx.filter fun p => p.1 == k && p.2.1 == v).map (fun p => p.2.2)

/-- Well-formedness of a store, exactly the invariants the write path
maintains (spec section 3): primary keys strictly sorted (hence scans are
time-ordered), primary records carry their own key as `ID`, and the two
secondary keyspaces are sound and complete for the primary one, with ids
sorted within each index prefix. -/
structure StoreWF (s : Store) : Prop where
  primarySorted : s.primary.Pairwise fun a b => a.1 < b.1
  idConsistent : ∀ p ∈ s.primary, p.2.id = p.1
  typeSorted : s.typeIdx.Pairwise fun a b => a.1 = b.1 → a.2 < b.2
  tagSorted : s.tagIdx.Pairwise fun a b => a.1 = b.1 → a.2.1 = b.2.1 → a.2.2 < b.2.2
  typeSound : ∀ p ∈ s.typeIdx, s.primary.any fun x => x.1 == p.2 && x.2.type == p.1
  typeComplete : ∀ p ∈ s.primary, (p.2.type, p.1) ∈ s.typeIdx
  tagSound : ∀ p ∈ s.tagIdx,
    s.primary.any fun x => x.1 == p.2.2 && x.2.tags.contains (p.1, p.2.1)
  tagComplete : ∀ p ∈ s.primary, ∀ kv ∈ p.2.tags, (kv.1, kv.2, p.1) ∈ s.tagIdx

/-- The writer stamps each event's ULID from its timestamp, so the encoded
millisecond time of a primary key is its record's timestamp truncated to
milliseconds. -/
def TimesConsistent (s : Store) : Prop :=
  ∀ p ∈ s.primary, ulidTime p.1 = p.2.timestamp / 1000000 * 1000000

/-- Iteration direction of a badger prefix scan: `Reverse` mode (used when
`q.Descending`) visits the same keys in the opposite order. -/
def orient (q : Query) (l : List α) : List α :=
  if q.descending then l.reverse else l

/-- The loop of `scanIndex` (`query.go`): visit index keys in scan order,
decode the trailing id (never fails for writer-produced keys), apply the
time-range predicate, collect, and break once `Limit` ids are collected.
`col` is the number of ids collected so far (`len(ids)` in the source). -/
def scanIndexGo (q : Query) : List Nat → Nat → List Nat
  | [], _ => []
  | id :: rest, col =>
    if matchesTimeRange id q then
      if q.limit > 0 ∧ ((col : Int) + 1) ≥ q.limit then [id]
      else id :: scanIndexGo q rest (col + 1)
    else scanIndexGo q rest col

/-- `scanTypeIndex` (`query.go`): scan the type-index prefix of `ty`. -/
def scanTypeIndex (s : Store) (ty : String) (q : Query) : List Nat :=
  scanIndexGo q (orient q (typeIndexIds s ty)) 0

/-- `scanTagIndex` (`query.go`): scan the tag-index prefix of `(k, v)`. -/
def scanTagIndex (s : Store) (k v : String) (q : Query) : List Nat :=
  scanIndexGo q (orient q (tagIndexIds s k v)) 0

/-- `planQuery` (`query.go`): a single type filter drives the type index;
otherwise the first tag filter drives that tag's index; otherwise no index
(`none` = full scan). -/
def planQuery (s : Store) (q : Query) : Option (List Nat) :=
  if q.types.length = 1 then some (scanTypeIndex s (q.types.headD "") q)
  else
    match q.tags with
    | kv :: _ => some (scanTagIndex s kv.1 kv.2 q)
    | [] => none

/-- The loop of `fetchEventsByIDs` (`query.go`): load each candidate id
from the primary keyspace (skipping misses), apply the residual filters,
collect, and break once `Limit` events are collected. -/
def fetchEventsByIDsGo (s : Store) (q : Query) : List Nat → Nat → List Event
  | [], _ => []
  | id :: rest, col =>
    match getPrimary s id with
    | none => fetchEventsByIDsGo s q rest col
    | some e =>
      if matchesFilters e q then
        if q.limit > 0 ∧ ((col : Int) + 1) ≥ q.limit then [e]
        else e :: fetchEventsByIDsGo s q rest (col + 1)
      else fetchEventsByIDsGo s q rest col

/-- The loop of `fullScan` (`query.go`): visit primary records in scan
order; apply the time filter from the key alone, stopping early past the
relevant bound (ascending: past `End`; descending: before `Start`); then
the residual filters; collect and break once `Limit` events are
collected. -/
def fullScanGo (q : Query) : List (Nat × Event) → Nat → List Event
  | [], _ => []
  | (id, e) :: rest, col =>
    if matchesTimeRange id q then
      if matchesFilters e q then
        if q.limit > 0 ∧ ((col : Int) + 1) ≥ q.limit then [e]
        else e :: fullScanGo q rest (col + 1)
      else fullScanGo q rest col
    else
      if !q.descending && q.endTime.any (fun t => decide (t < ulidTime id)) then []
      else if q.descending && q.start.any (fun t => decide (ulidTime id < t)) then []
      else fullScanGo q rest col

/-- `DB.Query`'s scan dispatch (`query.go`): index-driven fetch when the
planner picked an index, else a full primary scan. -/
def Store.query (s : Store) (q : Query) : List Event :=
  match planQuery s q with
  | some ids => fetchEventsByIDsGo s q ids 0
  | none => fullScanGo q (orient q s.primary) 0

/-- `DB.Query` (`query.go`): reject when closed, then scan. -/
def DB.Query (db : DB) (q : Query) : Except SquidError (List Event) :=
  if db.closed then .error .closed else .ok (db.store.query q)

/-- An event survives all of a query's predicates: the time range (decided
from its identifier) and the residual type/tag filters. -/
def matchesAll (q : Query) (p : Nat × Event) : Bool :=
  matchesTimeRange p.1 q && matchesFilters p.2 q

/-- The records an index-driven fetch can return, before the limit cut:
each candidate id's primary record, when present and passing the residual
filters, in candidate order. -/
def candidateEvents (s : Store) (q : Query) : List Nat → List Event
  | [] => []
  | id :: rest =>
    match getPrimary s id with
    | none => candidateEvents s q rest
    | some e =>
      if matchesFilters e q then e :: candidateEvents s q rest
      else candidateEvents s q rest

theorem candidateEvents_eq_filterMap (s : Store) (q : Query) (ids : List Nat) :
    candidateEvents s q ids = ids.filterMap fun id =>
      match getPrimary s id with
      | none => none
      | some e => if matchesFilters e q then some e else none := by
  induction ids with
  | nil => rfl
  | cons id rest ih =>
    rw [List.filterMap_cons]
    cases hg : getPrimary s id with
    | none => simp only [candidateEvents, hg, ih]
    | some e =>
      by_cases hf : matchesFilters e q
      · simp only [candidateEvents, hg, hf, if_true, ih]
      · simp only [candidateEvents, hg, hf, if_false, Bool.false_eq_true, ih]

/-- Relative order of two primary entries in scan direction: ascending key
order normally, descending in `Reverse` mode. -/
def scanOrd (q : Query) (a b : Nat × Event) : Prop :=
  if q.descending then ulidTime b.1 ≤ ulidTime a.1 else ulidTime a.1 ≤ ulidTime b.1

theorem scanIndexGo_eq_take (q : Query) (hl : 0 < q.limit) :
    ∀ (l : List Nat) (col : Nat), (col : Int) < q.limit →
      scanIndexGo q l col =
        (l.filter fun id => matchesTimeRange id q).take (q.limit - col).toNat := by
  intro l
  induction l with
  | nil => intro col _; simp [scanIndexGo]
  | cons id rest ih =>
    intro col hcol
    by_cases hm : matchesTimeRange id q
    · by_cases hb : ((col : Int) + 1) ≥ q.limit
      · have h1 : (q.limit - col).toNat = 1 := by omega
        simp [scanIndexGo, hm, hb, hl, h1]
      · have h1 : (q.limit - col).toNat = (q.limit - (col + 1 : Nat)).toNat + 1 := by
          push_cast; omega
        simp only [scanIndexGo, hm, if_true, List.filter_cons_of_pos, h1,
          List.take_succ_cons]
        rw [if_neg (by omega)]
        rw [ih (col + 1) (by omega)]
    · simp [scanIndexGo, hm, ih col hcol]

theorem scanIndexGo_eq_filter (q : Query) (hl : q.limit ≤ 0) :
    ∀ (l : List Nat) (col : Nat),
      scanIndexGo q l col = l.filter fun id => matchesTimeRange id q := by
  intro l
  induction l with
  | nil => intro col; simp [scanIndexGo]
  | cons id rest ih =>
    intro col
    by_cases hm : matchesTimeRange id q
    · simp [scanIndexGo, hm, ih, if_neg (by omega : ¬(q.limit > 0 ∧ ((col : Int) + 1) ≥ q.limit))]
    · simp [scanIndexGo, hm, ih]

theorem fetchEventsByIDsGo_eq_take (s : Store) (q : Query) (hl : 0 < q.limit) :
    ∀ (ids : List Nat) (col : Nat), (col : Int) < q.limit →
      fetchEventsByIDsGo s q ids col =
        (candidateEvents s q ids).take (q.limit - col).toNat := by
  intro ids
  induction ids with
  | nil => intro col _; simp [fetchEventsByIDsGo, candidateEvents]
  | cons id rest ih =>
    intro col hcol
    cases hg : getPrimary s id with
    | none =>
      simp only [fetchEventsByIDsGo, candidateEvents, hg]
      exact ih col hcol
    | some e =>
      by_cases hf : matchesFilters e q
      · by_cases hb : ((col : Int) + 1) ≥ q.limit
        · have h1 : (q.limit - col).toNat = 1 := by omega
          simp [fetchEventsByIDsGo, hg, hf, hb, hl, h1, candidateEvents]
        · have h1 : (q.limit - col).toNat = (q.limit - (col + 1 : Nat)).toNat + 1 := by
            push_cast; omega
          simp only [fetchEventsByIDsGo, candidateEvents, hg, hf, if_true, h1,
            List.take_succ_cons]
          rw [if_neg (by omega)]
          rw [ih (col + 1) (by omega)]
      · simp only [fetchEventsByIDsGo, candidateEvents, hg, hf, if_false,
          Bool.false_eq_true]
        exact ih col hcol

theorem fetchEventsByIDsGo_eq_filterMap (s : Store) (q : Query) (hl : q.limit ≤ 0) :
    ∀ (ids : List Nat) (col : Nat),
      fetchEventsByIDsGo s q ids col = candidateEvents s q ids := by
  intro ids
  induction ids with
  | nil => intro col; simp [fetchEventsByIDsGo, candidateEvents]
  | cons id rest ih =>
    intro col
    cases hg : getPrimary s id with
    | none =>
      simp only [fetchEventsByIDsGo, candidateEvents, hg]
      exact ih col
    | some e =>
      by_cases hf : matchesFilters e q
      · simp only [fetchEventsByIDsGo, candidateEvents, hg, hf, if_true]
        rw [if_neg (by omega : ¬(q.limit > 0 ∧ ((col : Int) + 1) ≥ q.limit))]
        rw [ih (col + 1)]
      · simp only [fetchEventsByIDsGo, candidateEvents, hg, hf, if_false,
          Bool.false_eq_true]
        exact ih col

/-- Early termination is sound: once the scan is past the relevant bound,
every remaining record fails the time filter. -/
theorem rest_filter_nil_of_break (q : Query) (id : Nat) (rest : List (Nat × Event))
    (hrest : ∀ b ∈ rest,
      if q.descending then ulidTime b.1 ≤ ulidTime id else ulidTime id ≤ ulidTime b.1)
    (hbreak : (!q.descending && q.endTime.any (fun t => decide (t < ulidTime id))) ||
              (q.descending && q.start.any (fun t => decide (ulidTime id < t)))) :
    rest.filter (matchesAll q) = [] := by
  rw [List.filter_eq_nil_iff]
  intro b hb
  have hord := hrest b hb
  rcases Bool.or_eq_true _ _ |>.mp hbreak with h | h
  · obtain ⟨hdesc, hend⟩ := Bool.and_eq_true _ _ |>.mp h
    simp only [Bool.not_eq_true'] at hdesc
    rw [if_neg (by simp [hdesc])] at hord
    cases hq : q.endTime with
    | none => rw [hq] at hend; simp at hend
    | some t =>
      rw [hq] at hend
      simp only [Option.any_some, decide_eq_true_eq] at hend
      have hlt : t < ulidTime b.1 := lt_of_lt_of_le hend hord
      simp [matchesAll, matchesTimeRange, hq, hlt]
  · obtain ⟨hdesc, hstart⟩ := Bool.and_eq_true _ _ |>.mp h
    rw [if_pos hdesc] at hord
    cases hq : q.start with
    | none => rw [hq] at hstart; simp at hstart
    | some t =>
      rw [hq] at hstart
      simp only [Option.any_some, decide_eq_true_eq] at hstart
      have hlt : ulidTime b.1 < t := lt_of_le_of_lt hord hstart
      simp [matchesAll, matchesTimeRange, hq, hlt]

theorem fullScanGo_eq_take (q : Query) (hl : 0 < q.limit) :
    ∀ (l : List (Nat × Event)) (col : Nat),
      l.Pairwise (fun a b =>
        if q.descending then ulidTime b.1 ≤ ulidTime a.1
        else ulidTime a.1 ≤ ulidTime b.1) →
      (col : Int) < q.limit →
      fullScanGo q l col =
        ((l.filter (matchesAll q)).map Prod.snd).take (q.limit - col).toNat := by
  intro l
  induction l with
  | nil => intro col _ _; simp [fullScanGo]
  | cons p rest ih =>
    obtain ⟨id, e⟩ := p
    intro col hpw hcol
    rw [List.pairwise_cons] at hpw
    obtain ⟨hhead, htail⟩ := hpw
    have hstep : fullScanGo q ((id, e) :: rest) col =
        (if matchesTimeRange id q then
          if matchesFilters e q then
            if q.limit > 0 ∧ ((col : Int) + 1) ≥ q.limit then [e]
            else e :: fullScanGo q rest (col + 1)
          else fullScanGo q rest col
        else
          if !q.descending && q.endTime.any (fun t => decide (t < ulidTime id)) then []
          else if q.descending && q.start.any (fun t => decide (ulidTime id < t)) then []
          else fullScanGo q rest col) := rfl
    rw [hstep]
    by_cases hm : matchesTimeRange id q
    · have hma : matchesAll q (id, e) = matchesFilters e q := by
        simp [matchesAll, hm]
      rw [if_pos hm]
      by_cases hf : matchesFilters e q
      · rw [if_pos hf, List.filter_cons_of_pos (by rw [hma]; exact hf), List.map_cons]
        by_cases hb : ((col : Int) + 1) ≥ q.limit
        · have h1 : (q.limit - col).toNat = 1 := by omega
          rw [if_pos ⟨hl, hb⟩, h1, List.take_succ_cons, List.take_zero]
        · have h1 : (q.limit - col).toNat = (q.limit - ((col : Int) + 1)).toNat + 1 := by
            omega
          rw [if_neg (by omega), h1, List.take_succ_cons,
            ih (col + 1) htail (by omega)]
          push_cast
          rfl
      · rw [if_neg hf, List.filter_cons_of_neg (by rw [hma]; exact Bool.not_eq_true _ ▸ hf)]
        exact ih col htail hcol
    · have hma : matchesAll q (id, e) = false := by
        simp [matchesAll, hm]
      rw [if_neg hm, List.filter_cons_of_neg (by rw [hma]; exact Bool.false_ne_true)]
      by_cases hb1 : (!q.descending && q.endTime.any fun t => decide (t < ulidTime id)) = true
      · rw [if_pos hb1, rest_filter_nil_of_break q id rest hhead (by rw [hb1]; rfl)]
        simp
      · rw [if_neg hb1]
        by_cases hb2 : (q.descending && q.start.any fun t => decide (ulidTime id < t)) = true
        · rw [if_pos hb2, rest_filter_nil_of_break q id rest hhead (by rw [hb2]; simp)]
          simp
        · rw [if_neg hb2]
          exact ih col htail hcol

theorem fullScanGo_eq_filter (q : Query) (hl : q.limit ≤ 0) :
    ∀ (l : List (Nat × Event)) (col : Nat),
      l.Pairwise (fun a b =>
        if q.descending then ulidTime b.1 ≤ ulidTime a.1
        else ulidTime a.1 ≤ ulidTime b.1) →
      fullScanGo q l col = (l.filter (matchesAll q)).map Prod.snd := by
  intro l
  induction l with
  | nil => intro col _; simp [fullScanGo]
  | cons p rest ih =>
    obtain ⟨id, e⟩ := p
    intro col hpw
    rw [List.pairwise_cons] at hpw
    obtain ⟨hhead, htail⟩ := hpw
    have hstep : fullScanGo q ((id, e) :: rest) col =
        (if matchesTimeRange id q then
          if matchesFilters e q then
            if q.limit > 0 ∧ ((col : Int) + 1) ≥ q.limit then [e]
            else e :: fullScanGo q rest (col + 1)
          else fullScanGo q rest col
        else
          if !q.descending && q.endTime.any (fun t => decide (t < ulidTime id)) then []
          else if q.descending && q.start.any (fun t => decide (ulidTime id < t)) then []
          else fullScanGo q rest col) := rfl
    rw [hstep]
    by_cases hm : matchesTimeRange id q
    · have hma : matchesAll q (id, e) = matchesFilters e q := by
        simp [matchesAll, hm]
      rw [if_pos hm]
      by_cases hf : matchesFilters e q
      · rw [if_pos hf, List.filter_cons_of_pos (by rw [hma]; exact hf), List.map_cons,
          if_neg (by omega : ¬(q.limit > 0 ∧ ((col : Int) + 1) ≥ q.limit)),
          ih (col + 1) htail]
      · rw [if_neg hf, List.filter_cons_of_neg (by rw [hma]; exact Bool.not_eq_true _ ▸ hf)]
        exact ih col htail
    · have hma : matchesAll q (id, e) = false := by
        simp [matchesAll, hm]
      rw [if_neg hm, List.filter_cons_of_neg (by rw [hma]; exact Bool.false_ne_true)]
      by_cases hb1 : (!q.descending && q.endTime.any fun t => decide (t < ulidTime id)) = true
      · rw [if_pos hb1, rest_filter_nil_of_break q id rest hhead (by rw [hb1]; rfl)]
        simp
      · rw [if_neg hb1]
        by_cases hb2 : (q.descending && q.start.any fun t => decide (ulidTime id < t)) = true
        · rw [if_pos hb2, rest_filter_nil_of_break q id rest hhead (by rw [hb2]; simp)]
          simp
        · rw [if_neg hb2]
          exact ih col htail

theorem ulidTime_mono {a b : Nat} (h : a ≤ b) : ulidTime a ≤ ulidTime b :=
  Nat.mul_le_mul_right _ (Nat.div_le_div_right h)

theorem mem_orient {q : Query} {l : List α} {a : α} (h : a ∈ orient q l) : a ∈ l := by
  unfold orient at h
  by_cases hd : q.descending
  · rw [if_pos hd] at h; exact List.mem_reverse.mp h
  · rw [if_neg hd] at h; exact h

theorem orient_pairwise {R : α → α → Prop} (q : Query) (l : List α) (h : l.Pairwise R) :
    (orient q l).Pairwise fun a b => if q.descending then R b a else R a b := by
  unfold orient
  cases hd : q.descending
  · simp only [hd, Bool.false_eq_true, if_false]
    exact h
  · simp only [hd, if_true]
    rw [List.pairwise_reverse]
    exact h

theorem getPrimary_mem {s : Store} {id : Nat} {e : Event}
    (h : getPrimary s id = some e) : (id, e) ∈ s.primary := by
  unfold getPrimary at h
  cases hf : s.primary.find? fun p => p.1 == id with
  | none => rw [hf] at h; simp at h
  | some pr =>
    rw [hf] at h
    simp only [Option.map_some', Option.some.injEq] at h
    have hm := List.mem_of_find?_eq_some hf
    have hp : pr.1 = id := by simpa using List.find?_some hf
    have : pr = (id, e) := by
      rcases pr with ⟨a, b⟩
      simp only at hp h
      rw [hp, h]
    rwa [this] at hm

theorem getPrimary_id {s : Store} (hWF : StoreWF s) {id : Nat} {e : Event}
    (h : getPrimary s id = some e) : e.id = id :=
  hWF.idConsistent (id, e) (getPrimary_mem h)

theorem typeIndexIds_pairwise (s : Store) (ty : String) (hWF : StoreWF s) :
    (typeIndexIds s ty).Pairwise (· < ·) := by
  unfold typeIndexIds
  rw [List.pairwise_map]
  refine (hWF.typeSorted.filter _).imp_of_mem ?_
  intro a b ha hb hr
  have ha' : a.1 = ty := by simpa using (List.mem_filter.mp ha).2
  have hb' : b.1 = ty := by simpa using (List.mem_filter.mp hb).2
  exact hr (ha'.trans hb'.symm)

theorem tagIndexIds_pairwise (s : Store) (k v : String) (hWF : StoreWF s) :
    (tagIndexIds s k v).Pairwise (· < ·) := by
  unfold tagIndexIds
  rw [List.pairwise_map]
  refine (hWF.tagSorted.filter _).imp_of_mem ?_
  intro a b ha hb hr
  have ha' := (List.mem_filter.mp ha).2
  have hb' := (List.mem_filter.mp hb).2
  simp only [Bool.and_eq_true, beq_iff_eq] at ha' hb'
  exact hr (ha'.1.trans hb'.1.symm) (ha'.2.trans hb'.2.symm)

theorem scanIndexGo_sublist (q : Query) :
    ∀ (l : List Nat) (col : Nat), (scanIndexGo q l col).Sublist l := by
  intro l
  induction l with
  | nil => intro col; simp [scanIndexGo]
  | cons id rest ih =>
    intro col
    have hstep : scanIndexGo q (id :: rest) col =
        (if matchesTimeRange id q then
          if q.limit > 0 ∧ ((col : Int) + 1) ≥ q.limit then [id]
          else id :: scanIndexGo q rest (col + 1)
        else scanIndexGo q rest col) := rfl
    rw [hstep]
    by_cases hm : matchesTimeRange id q
    · rw [if_pos hm]
      by_cases hb : q.limit > 0 ∧ ((col : Int) + 1) ≥ q.limit
      · rw [if_pos hb]
        simpa using (List.nil_sublist rest).cons₂ id
      · rw [if_neg hb]
        exact (ih (col + 1)).cons₂ id
    · rw [if_neg hm]
      exact (ih col).cons id

theorem fetchEventsByIDsGo_sublist (s : Store) (q : Query) :
    ∀ (ids : List Nat) (col : Nat),
      (fetchEventsByIDsGo s q ids col).Sublist (candidateEvents s q ids) := by
  intro ids
  induction ids with
  | nil => intro col; simp [fetchEventsByIDsGo, candidateEvents]
  | cons id rest ih =>
    intro col
    cases hg : getPrimary s id with
    | none =>
      simp only [fetchEventsByIDsGo, candidateEvents, hg]
      exact ih col
    | some e =>
      by_cases hf : matchesFilters e q
      · simp only [fetchEventsByIDsGo, candidateEvents, hg, hf, if_true]
        by_cases hb : q.limit > 0 ∧ ((col : Int) + 1) ≥ q.limit
        · rw [if_pos hb]
          simpa using (List.nil_sublist (candidateEvents s q rest)).cons₂ e
        · rw [if_neg hb]
          exact (ih (col + 1)).cons₂ e
      · simp only [fetchEventsByIDsGo, candidateEvents, hg, hf, if_false,
          Bool.false_eq_true]
        exact ih col

theorem fullScanGo_sublist (q : Query) :
    ∀ (l : List (Nat × Event)) (col : Nat),
      (fullScanGo q l col).Sublist ((l.filter (matchesAll q)).map Prod.snd) := by
  intro l
  induction l with
  | nil => intro col; simp [fullScanGo]
  | cons p rest ih =>
    obtain ⟨id, e⟩ := p
    intro col
    have hstep : fullScanGo q ((id, e) :: rest) col =
        (if matchesTimeRange id q then
          if matchesFilters e q then
            if q.limit > 0 ∧ ((col : Int) + 1) ≥ q.limit then [e]
            else e :: fullScanGo q rest (col + 1)
          else fullScanGo q rest col
        else
          if !q.descending && q.endTime.any (fun t => decide (t < ulidTime id)) then []
          else if q.descending && q.start.any (fun t => decide (ulidTime id < t)) then []
          else fullScanGo q rest col) := rfl
    rw [hstep]
    by_cases hm : matchesTimeRange id q
    · rw [if_pos hm]
      by_cases hf : matchesFilters e q
      · rw [if_pos hf,
          List.filter_cons_of_pos (by simp [matchesAll, hm, hf]), List.map_cons]
        by_cases hb : q.limit > 0 ∧ ((col : Int) + 1) ≥ q.limit
        · rw [if_pos hb]
          simpa using List.nil_sublist _ |>.cons₂ e
        · rw [if_neg hb]
          exact (ih (col + 1)).cons₂ e
      · rw [if_neg hf,
          List.filter_cons_of_neg (by simp [matchesAll, hm, hf])]
        exact ih col
    · rw [if_neg hm,
        List.filter_cons_of_neg (by simp [matchesAll, hm])]
      by_cases hb1 : (!q.descending && q.endTime.any fun t => decide (t < ulidTime id)) = true
      · rw [if_pos hb1]; exact List.nil_sublist _
      · rw [if_neg hb1]
        by_cases hb2 : (q.descending && q.start.any fun t => decide (ulidTime id < t)) = true
        · rw [if_pos hb2]; exact List.nil_sublist _
        · rw [if_neg hb2]; exact ih col

theorem candidateFun_id (s : Store) (q : Query) (hWF : StoreWF s) (a : Nat) (x : Event)
    (hx : (match getPrimary s a with
           | none => none
           | some e => if matchesFilters e q then some e else none) = some x) :
    x.id = a := by
  cases hg : getPrimary s a with
  | none =>
    rw [hg] at hx
    exact Option.noConfusion hx
  | some e =>
    rw [hg] at hx
    have hx' : (if matchesFilters e q then some e else none) = some x := hx
    by_cases hf : matchesFilters e q
    · rw [if_pos hf] at hx'
      have hxe : e = x := Option.some.inj hx'
      rw [← hxe]
      exact getPrimary_id hWF hg
    · rw [if_neg hf] at hx'
      exact Option.noConfusion hx'

theorem candidateEvents_pairwise (s : Store) (q : Query) (hWF : StoreWF s)
    {ids : List Nat}
    (h : ids.Pairwise fun a b => if q.descending then b < a else a < b) :
    (candidateEvents s q ids).Pairwise
      fun a b => if q.descending then b.id < a.id else a.id < b.id := by
  rw [candidateEvents_eq_filterMap, List.pairwise_filterMap]
  refine h.imp ?_
  intro a b hr x hx y hy
  rw [Option.mem_def] at hx hy
  rw [candidateFun_id s q hWF a x hx, candidateFun_id s q hWF b y hy]
  exact hr

theorem planQuery_ids_pairwise (s : Store) (q : Query) (hWF : StoreWF s)
    {ids : List Nat} (h : planQuery s q = some ids) :
    ids.Pairwise fun a b => if q.descending then b < a else a < b := by
  unfold planQuery at h
  by_cases ht : q.types.length = 1
  · rw [if_pos ht] at h
    injection h with h
    rw [← h]
    unfold scanTypeIndex
    exact (orient_pairwise q _ (typeIndexIds_pairwise s _ hWF)).sublist
      (scanIndexGo_sublist q _ 0)
  · rw [if_neg ht] at h
    cases htag : q.tags with
    | nil => rw [htag] at h; cases h
    | cons kv rest =>
      rw [htag] at h
      injection h with h
      rw [← h]
      unfold scanTagIndex
      exact (orient_pairwise q _ (tagIndexIds_pairwise s _ _ hWF)).sublist
        (scanIndexGo_sublist q _ 0)

theorem query_eq_fetch {s : Store} {q : Query} {ids : List Nat}
    (h : planQuery s q = some ids) :
    s.query q = fetchEventsByIDsGo s q ids 0 := by
  unfold Store.query
  rw [h]

theorem query_eq_fullScan {s : Store} {q : Query} (h : planQuery s q = none) :
    s.query q = fullScanGo q (orient q s.primary) 0 := by
  unfold Store.query
  rw [h]

theorem orient_primary_time (s : Store) (q : Query) (hWF : StoreWF s) :
    (orient q s.primary).Pairwise fun a b =>
      if q.descending then ulidTime b.1 ≤ ulidTime a.1
      else ulidTime a.1 ≤ ulidTime b.1 := by
  exact orient_pairwise q _ (hWF.primarySorted.imp fun h => ulidTime_mono (Nat.le_of_lt h))

theorem query_pairwise_dir (s : Store) (q : Query) (hWF : StoreWF s) :
    (s.query q).Pairwise fun a b =>
      if q.descending then b.id < a.id else a.id < b.id := by
  unfold Store.query
  cases hplan : planQuery s q with
  | some ids =>
    have hids := planQuery_ids_pairwise s q hWF hplan
    have hcand := candidateEvents_pairwise s q hWF hids
    exact hcand.sublist (fetchEventsByIDsGo_sublist s q ids 0)
  | none =>
    have hpw : (orient q s.primary).Pairwise
        (fun a b : Nat × Event => if q.descending then b.1 < a.1 else a.1 < b.1) :=
      orient_pairwise q _ hWF.primarySorted
    have hfil := hpw.filter (matchesAll q)
    have hmap : (((orient q s.primary).filter (matchesAll q)).map Prod.snd).Pairwise
        (fun a b => if q.descending then b.id < a.id else a.id < b.id) := by
      rw [List.pairwise_map]
      refine hfil.imp_of_mem ?_
      intro a b ha hb hr
      have ha' : a.2.id = a.1 := hWF.idConsistent a (mem_orient (List.mem_filter.mp ha).1)
      have hb' : b.2.id = b.1 := hWF.idConsistent b (mem_orient (List.mem_filter.mp hb).1)
      rw [ha', hb']
      exact hr
    exact hmap.sublist (fullScanGo_sublist q (orient q s.primary) 0)

/-- Claim C4: on both the index-driven path and the full-scan path, `Query`
returns events in strictly increasing identifier order when `Descending`
is false and strictly decreasing identifier order when it is true. -/
theorem c4_query_ordering (s : Store) (q : Query) (hWF : StoreWF s) :
    (q.descending = false → (s.query q).Pairwise fun a b => a.id < b.id) ∧
    (q.descending = true → (s.query q).Pairwise fun a b => b.id < a.id) := by
  have h := query_pairwise_dir s q hWF
  constructor
  · intro hd
    refine h.imp fun {a b} hr => ?_
    rwa [hd, if_neg (by simp)] at hr
  · intro hd
    refine h.imp fun {a b} hr => ?_
    rwa [hd, if_pos rfl] at hr

def c4Event0 : Event := ⟨0, 0, "a", [], []⟩

def c4Event1 : Event := ⟨1, 0, "a", [], []⟩

def c4Store : Store := ⟨[(0, c4Event0), (1, c4Event1)], [("a", 0), ("a", 1)], []⟩

def c4Query : Query := ⟨none, none, [], [], 0, false⟩

theorem c4_query_ordering_witness :
    StoreWF c4Store ∧
      (c4Store.query c4Query).Pairwise fun a b => a.id < b.id := by
  have hwf : StoreWF c4Store :=
    ⟨by decide, by decide, by decide, by decide, by decide, by decide, by decide, by decide⟩
  exact ⟨hwf, (c4_query_ordering c4Store c4Query hwf).1 rfl⟩

/-- Events that survive every predicate of a query, counted over the whole
primary keyspace. -/
def countMatching (s : Store) (q : Query) : Nat :=
  (s.primary.filter (matchesAll q)).length

def c1Event0 : Event := ⟨0, 0, "A", [], []⟩

def c1Event1 : Event := ⟨1, 0, "A", [("k", "v")], []⟩

def c1Store : Store :=
  ⟨[(0, c1Event0), (1, c1Event1)], [("A", 0), ("A", 1)], [("k", "v", 1)]⟩

def c1Query : Query := ⟨none, none, ["A"], [("k", "v")], 1, false⟩

/-- Claim C1 is false on the index-driven path: in this well-formed store,
exactly `Limit = 1` event survives all filters, yet `Query` returns no
events, because `scanIndex` truncates the candidate ids at the limit
before the residual tag filter is applied. -/
theorem c1_counterexample :
    StoreWF c1Store ∧ c1Query.limit = 1 ∧ countMatching c1Store c1Query = 1 ∧
      c1Store.query c1Query = [] := by
  refine ⟨⟨by decide, by decide, by decide, by decide, by decide, by decide,
    by decide, by decide⟩, rfl, by decide, rfl⟩

/-- Claim C1 amended: with `Limit > 0`, `Query` never returns more than
`Limit` events on either path; and on the full-scan path (no single-type
filter, no tag filter) it returns exactly `Limit` events whenever at least
`Limit` events survive all predicates.  On the index-driven path exactness
can fail (see the counterexample): the index scan truncates candidates at
the limit before residual filtering. -/
theorem c1_query_limit_amended (s : Store) (q : Query) (hWF : StoreWF s)
    (hl : 0 < q.limit) :
    ((s.query q).length : Int) ≤ q.limit ∧
    (q.types.length ≠ 1 → q.tags = [] → q.limit.toNat ≤ countMatching s q →
      ((s.query q).length : Int) = q.limit) := by
  constructor
  · cases hplan : planQuery s q with
    | some ids =>
      rw [query_eq_fetch hplan]
      rw [fetchEventsByIDsGo_eq_take s q hl ids 0 (by omega)]
      have hle := List.length_take ((q.limit - ((0 : Nat) : Int)).toNat)
        (candidateEvents s q ids)
      have h2 := min_le_left ((q.limit - ((0 : Nat) : Int)).toNat)
        (candidateEvents s q ids).length
      omega
    | none =>
      rw [query_eq_fullScan hplan]
      rw [fullScanGo_eq_take q hl _ 0 (orient_primary_time s q hWF) (by omega)]
      have hle := List.length_take ((q.limit - ((0 : Nat) : Int)).toNat)
        (((orient q s.primary).filter (matchesAll q)).map Prod.snd)
      have h2 := min_le_left ((q.limit - ((0 : Nat) : Int)).toNat)
        (((orient q s.primary).filter (matchesAll q)).map Prod.snd).length
      omega
  · intro ht htags hcount
    have hplan : planQuery s q = none := by
      unfold planQuery
      rw [if_neg ht, htags]
    rw [query_eq_fullScan hplan]
    rw [fullScanGo_eq_take q hl _ 0 (orient_primary_time s q hWF) (by omega)]
    rw [List.length_take, List.length_map]
    have hflen : ((orient q s.primary).filter (matchesAll q)).length = countMatching s q := by
      unfold orient countMatching
      by_cases hd : q.descending
      · rw [if_pos hd, List.filter_reverse, List.length_reverse]
      · rw [if_neg hd]
    rw [hflen]
    have : ((q.limit - ((0 : Nat) : Int)).toNat ⊓ countMatching s q)
        = (q.limit - ((0 : Nat) : Int)).toNat ⊓ countMatching s q := rfl
    omega

def c1wEvent : Event := ⟨0, 0, "b", [], []⟩

def c1wStore : Store := ⟨[(0, c1wEvent)], [("b", 0)], []⟩

def c1wQuery : Query := ⟨none, none, [], [], 1, false⟩

theorem c1_query_limit_amended_witness :
    ((c1wStore.query c1wQuery).length : Int) ≤ c1wQuery.limit ∧
    ((c1wStore.query c1wQuery).length : Int) = c1wQuery.limit := by
  have hwf : StoreWF c1wStore :=
    ⟨by decide, by decide, by decide, by decide, by decide, by decide, by decide, by decide⟩
  have h := c1_query_limit_amended c1wStore c1wQuery hwf (by decide)
  exact ⟨h.1, h.2 (by decide) rfl (by decide)⟩

/-- A key of one of the three keyspaces, used to model which substrate
deletes fail (`txn.Delete` is fallible in the source). -/
inductive StoreKey where
  | primaryK (id : Nat)
  | typeK (ty : String) (id : Nat)
  | tagK (k v : String) (id : Nat)

/-- `txn.Delete` of a primary key: the key encodes exactly the id
(`encodeEventKey`), so precisely that entry is removed. -/
def delPrimary (s : Store) (id : Nat) : Store :=
  { s with primary := s.primary.filter fun p => !(p.1 == id) }

/-- `txn.Delete` of a type-index key (`encodeTypeIndexKey`). -/
def delType (s : Store) (ty : String) (id : Nat) : Store :=
  { s with typeIdx := s.typeIdx.filter fun p => !(p.1 == ty && p.2 == id) }

/-- `txn.Delete` of a tag-index key (`encodeTagIndexKey`). -/
def delTag (s : Store) (k v : String) (id : Nat) : Store :=
  { s with tagIdx := s.tagIdx.filter fun p => !(p.1 == k && p.2.1 == v && p.2.2 == id) }

/-- The tag-deletion loop of `deleteEventAndIndices`: delete each tag-index
entry of the event, aborting at the first failing delete (earlier deletes
stay buffered in the enclosing transaction). -/
def delTagsF (fail : StoreKey → Bool) (id : Nat) :
    Store → List (String × String) → Store × Bool
  | s, [] => (s, true)
  | s, kv :: rest =>
    if fail (.tagK kv.1 kv.2 id) then (s, false)
    else delTagsF fail id (delTag s kv.1 kv.2 id) rest

/-- `deleteEventAndIndices` (retention source file): delete the primary
key, then the type-index entry, then every tag-index entry; a failing
delete returns the error immediately (modelled as the `false` flag),
keeping the deletes already performed. -/
def deleteEventAndIndicesF (fail : StoreKey → Bool) (s : Store) (id : Nat) (e : Event) :
    Store × Bool :=
  if fail (.primaryK id) then (s, false)
  else
    let s1 := delPrimary s id
    if fail (.typeK e.type id) then (s1, false)
    else delTagsF fail id (delType s1 e.type id) e.tags

/-- `findExpiredEvents` (retention source file): scan primary keys
ascending; collect each record whose identifier encodes a time before the
cutoff; stop at the first record at or after the cutoff.  (Its Go error
result is always nil.) -/
def findExpiredEvents : List (Nat × Event) → Time → List (Nat × Event)
  | [], _ => []
  | (id, e) :: rest, before =>
    if ulidTime id < before then (id, e) :: findExpiredEvents rest before
    else []

/-- The deletion loop of `deleteBefore`: for each expired entry run
`deleteEventAndIndices`; on failure `continue` — skip the event without
counting it and without surfacing the error. -/
def deleteBeforeLoop (fail : StoreKey → Bool) :
    Store → List (Nat × Event) → Nat × Store
  | s, [] => (0, s)
  | s, (id, e) :: rest =>
    let r := deleteEventAndIndicesF fail s id e
    let r2 := deleteBeforeLoop fail r.1 rest
    (if r.2 then r2.1 + 1 else r2.1, r2.2)

/-- `deleteBefore` (retention source file): in one update transaction, find
the expired events and delete each one's entries, returning the count of
events deleted.  The closure returns a nil error in every case — per-event
delete failures are skipped — so the surfaced error is always `none`
(commit-level substrate failures are outside the model). -/
def deleteBeforeF (fail : StoreKey → Bool) (s : Store) (before : Time) :
    (Nat × Store) × Option SquidError :=
  (deleteBeforeLoop fail s (findExpiredEvents s.primary before), none)

/-- `DB.DeleteBefore` in the run where every substrate delete succeeds. -/
def deleteBefore (s : Store) (before : Time) : (Nat × Store) × Option SquidError :=
  deleteBeforeF (fun _ => false) s before

theorem delTagsF_false (id : Nat) :
    ∀ (tags : List (String × String)) (s : Store),
      delTagsF (fun _ => false) id s tags =
        ({ s with tagIdx := s.tagIdx.filter fun p =>
            !(tags.contains (p.1, p.2.1) && p.2.2 == id) }, true) := by
  intro tags
  induction tags with
  | nil =>
    intro s
    have hf : (s.tagIdx.filter fun p =>
        !(([] : List (String × String)).contains (p.1, p.2.1) && p.2.2 == id)) = s.tagIdx := by
      rw [show (fun p : String × String × Nat =>
          !(([] : List (String × String)).contains (p.1, p.2.1) && p.2.2 == id)) =
          fun _ => true from by funext p; simp]
      exact List.filter_true _
    show (s, true) = _
    rw [hf]
  | cons kv rest ih =>
    intro s
    have hstep : delTagsF (fun _ => false) id s (kv :: rest) =
        delTagsF (fun _ => false) id (delTag s kv.1 kv.2 id) rest := rfl
    rw [hstep, ih]
    have htag : (delTag s kv.1 kv.2 id).tagIdx.filter
        (fun p => !(rest.contains (p.1, p.2.1) && p.2.2 == id)) =
        s.tagIdx.filter fun p => !((kv :: rest).contains (p.1, p.2.1) && p.2.2 == id) := by
      show (s.tagIdx.filter _).filter _ = _
      rw [List.filter_filter]
      refine List.filter_congr ?_
      intro p _
      rw [Bool.eq_iff_iff]
      rcases kv with ⟨k, v⟩
      simp [List.contains_cons]
      tauto
    exact congrArg (fun t => ((Store.mk s.primary s.typeIdx t), true)) htag

theorem deleteEventAndIndicesF_false (s : Store) (id : Nat) (e : Event) :
    deleteEventAndIndicesF (fun _ => false) s id e =
      (⟨s.primary.filter fun p => !(p.1 == id),
        s.typeIdx.filter fun p => !(p.1 == e.type && p.2 == id),
        s.tagIdx.filter fun p => !(e.tags.contains (p.1, p.2.1) && p.2.2 == id)⟩, true) := by
  have hstep : deleteEventAndIndicesF (fun _ => false) s id e =
      delTagsF (fun _ => false) id (delType (delPrimary s id) e.type id) e.tags := rfl
  rw [hstep, delTagsF_false]
  rfl

theorem findExpiredEvents_eq_takeWhile (before : Time) :
    ∀ l : List (Nat × Event),
      findExpiredEvents l before = l.takeWhile fun p => decide (ulidTime p.1 < before) := by
  intro l
  induction l with
  | nil => rfl
  | cons p rest ih =>
    obtain ⟨id, e⟩ := p
    have hstep : findExpiredEvents ((id, e) :: rest) before =
        (if ulidTime id < before then (id, e) :: findExpiredEvents rest before
         else []) := rfl
    rw [hstep]
    simp only [List.takeWhile_cons]
    by_cases h : ulidTime id < before
    · rw [if_pos h, if_pos (by simpa using h), ih]
    · rw [if_neg h, if_neg (by simpa using h)]

theorem takeWhile_expired_eq_filter (before : Time) :
    ∀ l : List (Nat × Event), l.Pairwise (fun a b => a.1 < b.1) →
      l.takeWhile (fun p => decide (ulidTime p.1 < before)) =
        l.filter fun p => decide (ulidTime p.1 < before) := by
  intro l
  induction l with
  | nil => intro _; rfl
  | cons p rest ih =>
    intro hpw
    rw [List.pairwise_cons] at hpw
    obtain ⟨hhead, htail⟩ := hpw
    by_cases h : ulidTime p.1 < before
    · rw [List.takeWhile_cons, List.filter_cons_of_pos (by simpa using h)]
      rw [if_pos (by simpa using h)]
      rw [ih htail]
    · rw [List.takeWhile_cons, List.filter_cons_of_neg (by simpa using h)]
      rw [if_neg (by simpa using h)]
      symm
      rw [List.filter_eq_nil_iff]
      intro b hb
      have hlt : p.1 < b.1 := hhead b hb
      have hmono := ulidTime_mono (Nat.le_of_lt hlt)
      simp only [decide_eq_true_eq]
      exact fun hc => h (lt_of_le_of_lt hmono hc)

theorem deleteEventAndIndicesF_false_flag (s : Store) (id : Nat) (e : Event) :
    (deleteEventAndIndicesF (fun _ => false) s id e).2 = true := by
  rw [deleteEventAndIndicesF_false]

theorem deleteBeforeLoop_false_count :
    ∀ (L : List (Nat × Event)) (s : Store),
      (deleteBeforeLoop (fun _ => false) s L).1 = L.length := by
  intro L
  induction L with
  | nil => intro s; rfl
  | cons x L ih =>
    intro s
    obtain ⟨id, e⟩ := x
    simp only [deleteBeforeLoop, deleteEventAndIndicesF_false_flag, if_true,
      List.length_cons]
    rw [ih]

theorem deleteBeforeLoop_false_primary :
    ∀ (L : List (Nat × Event)) (s : Store),
      (deleteBeforeLoop (fun _ => false) s L).2.primary =
        s.primary.filter fun p => !(L.any fun x => p.1 == x.1) := by
  intro L
  induction L with
  | nil =>
    intro s
    show s.primary = _
    symm
    exact (List.filter_congr fun x _ => by simp).trans (List.filter_true _)
  | cons x L ih =>
    intro s
    obtain ⟨id, e⟩ := x
    simp only [deleteBeforeLoop]
    rw [ih]
    have hdel : (deleteEventAndIndicesF (fun _ => false) s id e).1.primary =
        s.primary.filter fun p => !(p.1 == id) :=
      congrArg (fun r => r.1.primary) (deleteEventAndIndicesF_false s id e)
    rw [hdel, List.filter_filter]
    refine List.filter_congr ?_
    intro p _
    rw [Bool.eq_iff_iff]
    simp [List.any_cons]
    tauto

theorem deleteBeforeLoop_false_typeIdx :
    ∀ (L : List (Nat × Event)) (s : Store),
      (deleteBeforeLoop (fun _ => false) s L).2.typeIdx =
        s.typeIdx.filter fun p => !(L.any fun x => p.1 == x.2.type && p.2 == x.1) := by
  intro L
  induction L with
  | nil =>
    intro s
    show s.typeIdx = _
    symm
    exact (List.filter_congr fun x _ => by simp).trans (List.filter_true _)
  | cons x L ih =>
    intro s
    obtain ⟨id, e⟩ := x
    simp only [deleteBeforeLoop]
    rw [ih]
    have hdel : (deleteEventAndIndicesF (fun _ => false) s id e).1.typeIdx =
        s.typeIdx.filter fun p => !(p.1 == e.type && p.2 == id) :=
      congrArg (fun r => r.1.typeIdx) (deleteEventAndIndicesF_false s id e)
    rw [hdel, List.filter_filter]
    refine List.filter_congr ?_
    intro p _
    rw [Bool.eq_iff_iff]
    simp [List.any_cons]
    tauto

theorem deleteBeforeLoop_false_tagIdx :
    ∀ (L : List (Nat × Event)) (s : Store),
      (deleteBeforeLoop (fun _ => false) s L).2.tagIdx =
        s.tagIdx.filter fun p =>
          !(L.any fun x => x.2.tags.contains (p.1, p.2.1) && p.2.2 == x.1) := by
  intro L
  induction L with
  | nil =>
    intro s
    show s.tagIdx = _
    symm
    exact (List.filter_congr fun x _ => by simp).trans (List.filter_true _)
  | cons x L ih =>
    intro s
    obtain ⟨id, e⟩ := x
    simp only [deleteBeforeLoop]
    rw [ih]
    have hdel : (deleteEventAndIndicesF (fun _ => false) s id e).1.tagIdx =
        s.tagIdx.filter fun p => !(e.tags.contains (p.1, p.2.1) && p.2.2 == id) :=
      congrArg (fun r => r.1.tagIdx) (deleteEventAndIndicesF_false s id e)
    rw [hdel, List.filter_filter]
    refine List.filter_congr ?_
    intro p _
    rw [Bool.eq_iff_iff]
    simp [List.any_cons]
    tauto

theorem findExpiredEvents_eq_filter (s : Store) (t : Time) (hWF : StoreWF s) :
    findExpiredEvents s.primary t =
      s.primary.filter fun p => decide (ulidTime p.1 < t) := by
  rw [findExpiredEvents_eq_takeWhile, takeWhile_expired_eq_filter t _ hWF.primarySorted]

theorem killed_primary (s : Store) (t : Time) (hWF : StoreWF s) :
    ∀ p ∈ s.primary,
      ((findExpiredEvents s.primary t).any fun x => p.1 == x.1) =
        decide (ulidTime p.1 < t) := by
  intro p hp
  rw [findExpiredEvents_eq_filter s t hWF, Bool.eq_iff_iff]
  simp only [List.any_eq_true, List.mem_filter, beq_iff_eq, decide_eq_true_eq]
  constructor
  · rintro ⟨x, ⟨_, hxt⟩, hpx⟩
    rw [hpx]
    exact hxt
  · intro hpt
    exact ⟨p, ⟨hp, hpt⟩, rfl⟩

theorem killed_typeIdx (s : Store) (t : Time) (hWF : StoreWF s) :
    ∀ p ∈ s.typeIdx,
      ((findExpiredEvents s.primary t).any fun x => p.1 == x.2.type && p.2 == x.1) =
        decide (ulidTime p.2 < t) := by
  intro p hp
  rw [findExpiredEvents_eq_filter s t hWF, Bool.eq_iff_iff]
  simp only [List.any_eq_true, List.mem_filter, Bool.and_eq_true, beq_iff_eq,
    decide_eq_true_eq]
  constructor
  · rintro ⟨x, ⟨_, hxt⟩, _, hid⟩
    rw [hid]
    exact hxt
  · intro hpt
    have hs := hWF.typeSound p hp
    rw [List.any_eq_true] at hs
    obtain ⟨x, hxm, hx⟩ := hs
    simp only [Bool.and_eq_true, beq_iff_eq] at hx
    exact ⟨x, ⟨hxm, by rw [hx.1]; exact hpt⟩, hx.2.symm, hx.1.symm⟩

theorem killed_tagIdx (s : Store) (t : Time) (hWF : StoreWF s) :
    ∀ p ∈ s.tagIdx,
      ((findExpiredEvents s.primary t).any fun x =>
        x.2.tags.contains (p.1, p.2.1) && p.2.2 == x.1) =
        decide (ulidTime p.2.2 < t) := by
  intro p hp
  rw [findExpiredEvents_eq_filter s t hWF, Bool.eq_iff_iff]
  simp only [List.any_eq_true, List.mem_filter, Bool.and_eq_true, beq_iff_eq,
    decide_eq_true_eq, List.contains_eq_any_beq]
  constructor
  · rintro ⟨x, ⟨_, hxt⟩, _, hid⟩
    rw [hid]
    exact hxt
  · intro hpt
    have hs := hWF.tagSound p hp
    rw [List.any_eq_true] at hs
    obtain ⟨x, hxm, hx⟩ := hs
    simp only [Bool.and_eq_true, beq_iff_eq, List.contains_eq_any_beq,
      List.any_eq_true] at hx
    exact ⟨x, ⟨hxm, by rw [hx.1]; exact hpt⟩, hx.2, hx.1.symm⟩

theorem deleteBefore_primary (s : Store) (t : Time) (hWF : StoreWF s) :
    (deleteBefore s t).1.2.primary =
      s.primary.filter fun p => !(decide (ulidTime p.1 < t)) := by
  show (deleteBeforeLoop _ s (findExpiredEvents s.primary t)).2.primary = _
  rw [deleteBeforeLoop_false_primary]
  refine List.filter_congr ?_
  intro p hp
  rw [killed_primary s t hWF p hp]

theorem deleteBefore_typeIdx (s : Store) (t : Time) (hWF : StoreWF s) :
    (deleteBefore s t).1.2.typeIdx =
      s.typeIdx.filter fun p => !(decide (ulidTime p.2 < t)) := by
  show (deleteBeforeLoop _ s (findExpiredEvents s.primary t)).2.typeIdx = _
  rw [deleteBeforeLoop_false_typeIdx]
  refine List.filter_congr ?_
  intro p hp
  rw [killed_typeIdx s t hWF p hp]

theorem deleteBefore_tagIdx (s : Store) (t : Time) (hWF : StoreWF s) :
    (deleteBefore s t).1.2.tagIdx =
      s.tagIdx.filter fun p => !(decide (ulidTime p.2.2 < t)) := by
  show (deleteBeforeLoop _ s (findExpiredEvents s.primary t)).2.tagIdx = _
  rw [deleteBeforeLoop_false_tagIdx]
  refine List.filter_congr ?_
  intro p hp
  rw [killed_tagIdx s t hWF p hp]

theorem deleteBefore_count (s : Store) (t : Time) (hWF : StoreWF s) :
    (deleteBefore s t).1.1 =
      (s.primary.filter fun p => decide (ulidTime p.1 < t)).length := by
  show (deleteBeforeLoop _ s (findExpiredEvents s.primary t)).1 = _
  rw [deleteBeforeLoop_false_count, findExpiredEvents_eq_filter s t hWF]

theorem candidateFun_get (s : Store) (q : Query) (a : Nat) (x : Event)
    (hx : (match getPrimary s a with
           | none => none
           | some e => if matchesFilters e q then some e else none) = some x) :
    getPrimary s a = some x := by
  cases hg : getPrimary s a with
  | none =>
    rw [hg] at hx
    exact Option.noConfusion hx
  | some e =>
    rw [hg] at hx
    have hx' : (if matchesFilters e q then some e else none) = some x := hx
    by_cases hf : matchesFilters e q
    · rw [if_pos hf] at hx'
      exact hx'
    · rw [if_neg hf] at hx'
      exact Option.noConfusion hx'

theorem query_event_mem (s : Store) (q : Query) {e : Event} (h : e ∈ s.query q) :
    ∃ id, (id, e) ∈ s.primary := by
  cases hplan : planQuery s q with
  | some ids =>
    rw [query_eq_fetch hplan] at h
    have hc := (fetchEventsByIDsGo_sublist s q ids 0).subset h
    rw [candidateEvents_eq_filterMap, List.mem_filterMap] at hc
    obtain ⟨a, _, ha⟩ := hc
    exact ⟨a, getPrimary_mem (candidateFun_get s q a e ha)⟩
  | none =>
    rw [query_eq_fullScan hplan] at h
    have hc := (fullScanGo_sublist q (orient q s.primary) 0).subset h
    rw [List.mem_map] at hc
    obtain ⟨p, hpm, hpe⟩ := hc
    have hpp : p ∈ s.primary := mem_orient (List.mem_filter.mp hpm).1
    exact ⟨p.1, by rw [← hpe]; exact hpp⟩

/-- Claim C2: `DeleteBefore(t)` deletes — within the one modelled update
transaction — the primary record, the type-index entry, and every
tag-index entry of each persisted event whose identifier encodes a time
before `t`, and returns the number of events deleted.  Afterwards no event
with timestamp before `t` is reachable via `Get` (stated both for
identifier-encoded times and, through the writer's stamping invariant, for
stored `Timestamp` fields) or via any query, type- or tag-filtered
included.  Events whose identifier encodes a time at or after the cutoff
are untouched, in all three keyspaces. -/
theorem c2_delete_before (s : Store) (t : Time) (hWF : StoreWF s)
    (hts : TimesConsistent s) :
    (deleteBefore s t).2 = none ∧
    (deleteBefore s t).1.1 =
      (s.primary.filter fun p => decide (ulidTime p.1 < t)).length ∧
    (∀ p ∈ s.primary, ulidTime p.1 < t →
      p ∉ (deleteBefore s t).1.2.primary ∧
      (p.2.type, p.1) ∉ (deleteBefore s t).1.2.typeIdx ∧
      ∀ kv ∈ p.2.tags, (kv.1, kv.2, p.1) ∉ (deleteBefore s t).1.2.tagIdx) ∧
    (∀ id, ulidTime id < t → getPrimary (deleteBefore s t).1.2 id = none) ∧
    (∀ p ∈ s.primary, p.2.timestamp < t →
      getPrimary (deleteBefore s t).1.2 p.1 = none) ∧
    (∀ q : Query, ∀ e ∈ (deleteBefore s t).1.2.query q, ¬e.timestamp < t) ∧
    (∀ p ∈ s.primary, ¬ulidTime p.1 < t → p ∈ (deleteBefore s t).1.2.primary) ∧
    (∀ p ∈ s.typeIdx, ¬ulidTime p.2 < t → p ∈ (deleteBefore s t).1.2.typeIdx) ∧
    (∀ p ∈ s.tagIdx, ¬ulidTime p.2.2 < t → p ∈ (deleteBefore s t).1.2.tagIdx) := by
  have hprim := deleteBefore_primary s t hWF
  have htyp := deleteBefore_typeIdx s t hWF
  have htag := deleteBefore_tagIdx s t hWF
  have hget : ∀ id, ulidTime id < t → getPrimary (deleteBefore s t).1.2 id = none := by
    intro id hid
    unfold getPrimary
    rw [hprim]
    have : ((s.primary.filter fun p => !(decide (ulidTime p.1 < t))).find?
        fun p => p.1 == id) = none := by
      rw [List.find?_eq_none]
      intro x hx
      rw [List.mem_filter] at hx
      have hx2 := hx.2
      simp only [Bool.not_eq_eq_eq_not, Bool.not_true, decide_eq_false_iff_not] at hx2
      intro hbeq
      rw [beq_iff_eq] at hbeq
      rw [hbeq] at hx2
      exact hx2 hid
    rw [this]
    rfl
  refine ⟨rfl, deleteBefore_count s t hWF, ?_, hget, ?_, ?_, ?_, ?_, ?_⟩
  · intro p hp hpt
    refine ⟨?_, ?_, ?_⟩
    · intro hmem
      rw [hprim, List.mem_filter] at hmem
      have := hmem.2
      simp only [Bool.not_eq_eq_eq_not, Bool.not_true, decide_eq_false_iff_not] at this
      exact this hpt
    · intro hmem
      rw [htyp, List.mem_filter] at hmem
      have := hmem.2
      simp only [Bool.not_eq_eq_eq_not, Bool.not_true, decide_eq_false_iff_not] at this
      exact this hpt
    · intro kv _ hmem
      rw [htag, List.mem_filter] at hmem
      have := hmem.2
      simp only [Bool.not_eq_eq_eq_not, Bool.not_true, decide_eq_false_iff_not] at this
      exact this hpt
  · intro p hp hpts
    have hid : ulidTime p.1 < t := by
      have h1 := hts p hp
      have h2 := Nat.div_mul_le_self p.2.timestamp 1000000
      rw [h1]
      exact lt_of_le_of_lt h2 hpts
    exact hget p.1 hid
  · intro q e hmem
    obtain ⟨id, hid⟩ := query_event_mem _ q hmem
    rw [hprim, List.mem_filter] at hid
    have hkeep := hid.2
    simp only [Bool.not_eq_eq_eq_not, Bool.not_true, decide_eq_false_iff_not] at hkeep
    have h1 := hts (id, e) hid.1
    have h2 := Nat.div_mul_le_self e.timestamp 1000000
    intro hc
    apply hkeep
    simp only at h1
    rw [h1]
    exact lt_of_le_of_lt h2 hc
  · intro p hp hkeep
    rw [hprim, List.mem_filter]
    exact ⟨hp, by simpa using hkeep⟩
  · intro p hp hkeep
    rw [htyp, List.mem_filter]
    exact ⟨hp, by simpa using hkeep⟩
  · intro p hp hkeep
    rw [htag, List.mem_filter]
    exact ⟨hp, by simpa using hkeep⟩

def c2Event1 : Event := ⟨0, 0, "m", [("s", "a")], []⟩

def c2Event2 : Event := ⟨2 * 2 ^ 80, 2000000, "m", [("s", "a")], []⟩

def c2Store : Store :=
  ⟨[(0, c2Event1), (2 * 2 ^ 80, c2Event2)],
   [("m", 0), ("m", 2 * 2 ^ 80)],
   [("s", "a", 0), ("s", "a", 2 * 2 ^ 80)]⟩

theorem c2_delete_before_witness :
    (deleteBefore c2Store 1000000).2 = none ∧
    (deleteBefore c2Store 1000000).1.1 = 1 ∧
    getPrimary (deleteBefore c2Store 1000000).1.2 0 = none ∧
    (2 * 2 ^ 80, c2Event2) ∈ (deleteBefore c2Store 1000000).1.2.primary := by
  have hwf : StoreWF c2Store :=
    ⟨by decide, by decide, by decide, by decide, by decide, by decide, by decide, by decide⟩
  have hts : TimesConsistent c2Store := by unfold TimesConsistent; decide
  have h := c2_delete_before c2Store 1000000 hwf hts
  refine ⟨h.1, ?_, ?_, ?_⟩
  · rw [h.2.1]
    decide
  · exact h.2.2.2.1 0 (by decide)
  · exact h.2.2.2.2.2.2.1 (2 * 2 ^ 80, c2Event2) (by simp [c2Store]) (by decide)

/-- Whether `deleteEventAndIndices` succeeds for an event, as a function of
the failure oracle alone: all of the primary, type-index, and tag-index
deletes go through. -/
def deleteSucceeds (fail : StoreKey → Bool) (id : Nat) (e : Event) : Bool :=
  !fail (.primaryK id) && !fail (.typeK e.type id) &&
    e.tags.all fun kv => !fail (.tagK kv.1 kv.2 id)

theorem delTagsF_flag (fail : StoreKey → Bool) (id : Nat) :
    ∀ (tags : List (String × String)) (s : Store),
      (delTagsF fail id s tags).2 = tags.all fun kv => !fail (.tagK kv.1 kv.2 id) := by
  intro tags
  induction tags with
  | nil => intro s; rfl
  | cons kv rest ih =>
    intro s
    by_cases hf : fail (.tagK kv.1 kv.2 id)
    · have hstep : delTagsF fail id s (kv :: rest) = (s, false) := by
        show (if fail (.tagK kv.1 kv.2 id) then (s, false) else _) = _
        rw [if_pos hf]
      rw [hstep, List.all_cons, hf]
      rfl
    · have hstep : delTagsF fail id s (kv :: rest) =
          delTagsF fail id (delTag s kv.1 kv.2 id) rest := by
        show (if fail (.tagK kv.1 kv.2 id) then (s, false) else _) = _
        rw [if_neg hf]
      rw [hstep, ih, List.all_cons]
      have : fail (.tagK kv.1 kv.2 id) = false := by
        rwa [Bool.not_eq_true] at hf
      rw [this]
      rfl

theorem deleteEventAndIndicesF_flag (fail : StoreKey → Bool) (s : Store)
    (id : Nat) (e : Event) :
    (deleteEventAndIndicesF fail s id e).2 = deleteSucceeds fail id e := by
  unfold deleteEventAndIndicesF deleteSucceeds
  by_cases h1 : fail (.primaryK id)
  · rw [if_pos h1, h1]
    rfl
  · rw [if_neg h1]
    have h1' : fail (.primaryK id) = false := by rwa [Bool.not_eq_true] at h1
    by_cases h2 : fail (.typeK e.type id)
    · rw [if_pos h2, h1', h2]
      rfl
    · have h2' : fail (.typeK e.type id) = false := by rwa [Bool.not_eq_true] at h2
      rw [if_neg h2, delTagsF_flag, h1', h2']
      rfl

theorem deleteBeforeLoop_count (fail : StoreKey → Bool) :
    ∀ (L : List (Nat × Event)) (s : Store),
      (deleteBeforeLoop fail s L).1 =
        (L.filter fun x => deleteSucceeds fail x.1 x.2).length := by
  intro L
  induction L with
  | nil => intro s; rfl
  | cons x L ih =>
    intro s
    obtain ⟨id, e⟩ := x
    simp only [deleteBeforeLoop, deleteEventAndIndicesF_flag]
    by_cases hs : deleteSucceeds fail id e
    · rw [if_pos hs, List.filter_cons_of_pos (by exact hs), List.length_cons, ih]
    · rw [if_neg hs, List.filter_cons_of_neg (by exact hs), ih]

def c8Event : Event := ⟨0, 0, "x", [], []⟩

def c8Store : Store := ⟨[(0, c8Event)], [("x", 0)], []⟩

def c8Fail : StoreKey → Bool
  | .primaryK 0 => true
  | _ => false

/-- Claim C8 is false on the code: in this store the single expired
event's primary-key delete fails (`deleteEventAndIndices` returns the
error, modelled by the `false` flag), yet the pass does not abort and no
error is surfaced — `deleteBefore` returns count 0 with a nil error and
simply skips the event (`continue` in the source loop). -/
theorem c8_counterexample :
    deleteEventAndIndicesF c8Fail c8Store 0 c8Event = (c8Store, false) ∧
    deleteBeforeF c8Fail c8Store 1 = ((0, c8Store), none) :=
  ⟨rfl, rfl⟩

/-- Claim C8 amended: a failing per-event delete neither aborts the pass
nor reaches the caller.  `DeleteBefore` surfaces no error from the deletion
loop in any run, and its count is the number of expired events whose
primary, type-index, and every tag-index delete all succeeded; events with
a failing delete are skipped and not counted. -/
theorem c8_amended (fail : StoreKey → Bool) (s : Store) (t : Time) :
    (deleteBeforeF fail s t).2 = none ∧
    (deleteBeforeF fail s t).1.1 =
      ((findExpiredEvents s.primary t).filter fun x =>
        deleteSucceeds fail x.1 x.2).length :=
  ⟨rfl, deleteBeforeLoop_count fail (findExpiredEvents s.primary t) s⟩

/-- `txn.Set` on the primary keyspace: place the entry at its key's sorted
position (primary keys encode the id, so list position follows id),
replacing any entry with the same key. -/
def setPrimary : List (Nat × Event) → Nat → Event → List (Nat × Event)
  | [], id, e => [(id, e)]
  | y :: rest, id, e =>
    if id < y.1 then (id, e) :: y :: rest
    else if id = y.1 then (id, e) :: rest
    else y :: setPrimary rest id e

/-- `txn.Set` on the type-index keyspace (index values are empty): the
model keeps index entries sorted by trailing id. -/
def setTypeIdx : List (String × Nat) → String → Nat → List (String × Nat)
  | [], ty, id => [(ty, id)]
  | y :: rest, ty, id =>
    if id < y.2 then (ty, id) :: y :: rest
    else if y = (ty, id) then y :: rest
    else y :: setTypeIdx rest ty id

/-- `txn.Set` on the tag-index keyspace. -/
def setTagIdx : List (String × String × Nat) → String → String → Nat →
    List (String × String × Nat)
  | [], k, v, id => [(k, v, id)]
  | y :: rest, k, v, id =>
    if id < y.2.2 then (k, v, id) :: y :: rest
    else if y = (k, v, id) then y :: rest
    else y :: setTagIdx rest k v id

/-- The write transaction body shared by `Append` and `AppendBatch`: set
the primary record, the type-index entry, and one tag-index entry per tag
pair (serialization always succeeds in the model). -/
def writeEventTxn (s : Store) (e : Event) : Store :=
  let s1 := { s with primary := setPrimary s.primary e.id e }
  let s2 := { s1 with typeIdx := setTypeIdx s1.typeIdx e.type e.id }
  { s2 with tagIdx := e.tags.foldl (fun tg kv => setTagIdx tg kv.1 kv.2 e.id) s2.tagIdx }

/-- `DB.Append`: reject when closed; validate; stamp the timestamp when
zero and the identifier from the ULID source (`genId` is the generator's
output, `now` the wall clock); write atomically; return the stamped
event.  A validation failure is returned before any write — the `error`
result carries no new state. -/
def DB.Append (db : DB) (genId : Nat) (now : Time) (e : Event) :
    Except SquidError (DB × Event) :=
  if db.closed then .error .closed
  else
    match e.validate with
    | some err => .error err
    | none =>
      let e1 := if e.timestamp = 0 then { e with timestamp := now } else e
      let e2 := { e1 with id := genId }
      .ok ({ db with store := writeEventTxn db.store e2 }, e2)

/-- The stamping and writing loop of `AppendBatch`'s transaction; `gen i`
models the ULID issued for the i-th event. -/
def stampAndWrite (gen : Nat → Nat) (now : Time) :
    Store → Nat → List Event → Store × List Event
  | s, _, [] => (s, [])
  | s, i, e :: rest =>
    let e1 := if e.timestamp = 0 then { e with timestamp := now } else e
    let e2 := { e1 with id := gen i }
    let r := stampAndWrite gen now (writeEventTxn s e2) (i + 1) rest
    (r.1, e2 :: r.2)

/-- `DB.AppendBatch`: reject when closed; empty input returns immediately;
validate every event up front, rejecting the whole batch on the first
validation failure before any write; then stamp and write all events in
one transaction. -/
def DB.AppendBatch (db : DB) (gen : Nat → Nat) (now : Time) (events : List Event) :
    Except SquidError (DB × List Event) :=
  if db.closed then .error .closed
  else if events.isEmpty then .ok (db, [])
  else
    match events.findSome? Event.validate with
    | some err => .error err
    | none =>
      let r := stampAndWrite gen now db.store 0 events
      .ok ({ db with store := r.1 }, r.2)

theorem validate_eq_some {e : Event} {err : SquidError}
    (h : e.validate = some err) : err = .emptyType ∧ e.type = "" := by
  unfold Event.validate at h
  by_cases ht : e.type = ""
  · rw [if_pos ht] at h
    exact ⟨(Option.some.inj h).symm, ht⟩
  · rw [if_neg ht] at h
    exact Option.noConfusion h

theorem findSome_validate_emptyType :
    ∀ events : List Event, (∃ x ∈ events, x.type = "") →
      events.findSome? Event.validate = some .emptyType := by
  intro events
  induction events with
  | nil =>
    rintro ⟨x, hx, _⟩
    cases hx
  | cons y rest ih =>
    rintro ⟨x, hx, hxt⟩
    rw [List.findSome?_cons]
    cases hyv : y.validate with
    | some err =>
      show some err = some SquidError.emptyType
      rw [(validate_eq_some hyv).1]
    | none =>
      show rest.findSome? Event.validate = some SquidError.emptyType
      rcases List.mem_cons.mp hx with hxy | hxr
      · exfalso
        unfold Event.validate at hyv
        rw [← hxy, if_pos hxt] at hyv
        exact Option.noConfusion hyv
      · exact ih ⟨x, hxr, hxt⟩

/-- Claim C3: `Append` on an event with empty `Type` fails with
`ErrEmptyType`, and `AppendBatch` fails with `ErrEmptyType` when any event
of the batch has an empty `Type`; in both cases validation happens before
any write, so the `error` result carries no new store and the database
state is unchanged. -/
theorem c3_empty_type (db : DB) (genId : Nat) (gen : Nat → Nat) (now : Time)
    (e : Event) (events : List Event) (hopen : db.closed = false)
    (he : e.type = "") (hev : ∃ x ∈ events, x.type = "") :
    DB.Append db genId now e = .error .emptyType ∧
    DB.AppendBatch db gen now events = .error .emptyType := by
  constructor
  · unfold DB.Append
    rw [hopen]
    simp only [Bool.false_eq_true, if_false]
    have hv : e.validate = some .emptyType := by
      unfold Event.validate
      rw [if_pos he]
    rw [hv]
  · unfold DB.AppendBatch
    rw [hopen]
    simp only [Bool.false_eq_true, if_false]
    have hne : events.isEmpty = false := by
      obtain ⟨x, hx, _⟩ := hev
      cases events
      · cases hx
      · rfl
    rw [hne]
    simp only [Bool.false_eq_true, if_false]
    rw [findSome_validate_emptyType events hev]

def c3Event : Event := ⟨0, 5, "", [], []⟩

def c3Good : Event := ⟨0, 5, "ok", [], []⟩

def c3DB : DB := ⟨⟨[], [], []⟩, false⟩

theorem c3_empty_type_witness :
    DB.Append c3DB 7 1 c3Event = .error .emptyType ∧
    DB.AppendBatch c3DB (fun i => i) 1 [c3Good, c3Event] = .error .emptyType := by
  have h := c3_empty_type c3DB 7 (fun i => i) 1 c3Event [c3Good, c3Event] rfl rfl
    ⟨c3Event, by simp, rfl⟩
  exact h

theorem matchesTimeRange_iff (id : Nat) (q : Query) :
    matchesTimeRange id q = true ↔
      ((∀ st ∈ q.start, st ≤ ulidTime id) ∧ (∀ en ∈ q.endTime, ulidTime id ≤ en)) := by
  unfold matchesTimeRange
  cases q.start <;> cases q.endTime <;> simp [Nat.not_lt]

theorem matchesFilters_trivial (e : Event) (q : Query) (hty : q.types = [])
    (htag : q.tags = []) : matchesFilters e q = true := by
  unfold matchesFilters
  rw [hty, htag]
  rfl

theorem mem_orient_iff {q : Query} {l : List α} {a : α} : a ∈ orient q l ↔ a ∈ l := by
  unfold orient
  by_cases hd : q.descending
  · rw [if_pos hd, List.mem_reverse]
  · rw [if_neg hd]

/-- Claim C9: membership in a query's time range and expiry in
`DeleteBefore` are decided by the millisecond-resolution time encoded in
the event's identifier — the event's stored `Timestamp` truncated to
milliseconds under the writer's stamping invariant — not by the stored
`Timestamp` itself: the time predicate holds exactly on the truncated
time, (unfiltered, unlimited) query membership is governed by that
predicate, and `DeleteBefore` removes a record exactly when its truncated
time is before the cutoff. -/
theorem c9_identifier_time (s : Store) (q : Query) (t : Time) (hWF : StoreWF s)
    (hts : TimesConsistent s) :
    (∀ id e, (id, e) ∈ s.primary →
      (matchesTimeRange id q = true ↔
        ((∀ st ∈ q.start, st ≤ e.timestamp / 1000000 * 1000000) ∧
         (∀ en ∈ q.endTime, e.timestamp / 1000000 * 1000000 ≤ en)))) ∧
    (q.limit = 0 → q.types = [] → q.tags = [] →
      ∀ e, e ∈ s.query q ↔ ∃ id, (id, e) ∈ s.primary ∧ matchesTimeRange id q = true) ∧
    (∀ id e, (id, e) ∈ s.primary →
      ((id, e) ∉ (deleteBefore s t).1.2.primary ↔
        e.timestamp / 1000000 * 1000000 < t)) := by
  refine ⟨?_, ?_, ?_⟩
  · intro id e hmem
    have h1 : ulidTime id = e.timestamp / 1000000 * 1000000 := by
      simpa using hts (id, e) hmem
    rw [← h1]
    exact matchesTimeRange_iff id q
  · intro hlim hty htag e
    have hplan : planQuery s q = none := by
      unfold planQuery
      rw [if_neg (by rw [hty]; simp), htag]
    rw [query_eq_fullScan hplan,
      fullScanGo_eq_filter q (by rw [hlim]) _ 0 (orient_primary_time s q hWF)]
    constructor
    · intro hmem
      rw [List.mem_map] at hmem
      obtain ⟨p, hpf, hpe⟩ := hmem
      rw [List.mem_filter] at hpf
      refine ⟨p.1, ?_, ?_⟩
      · have hp := mem_orient hpf.1
        have : (p.1, e) = p := by rw [← hpe]
        rwa [this]
      · have hma := hpf.2
        unfold matchesAll at hma
        exact (Bool.and_eq_true _ _ |>.mp hma).1
    · rintro ⟨id, hmem, htr⟩
      rw [List.mem_map]
      refine ⟨(id, e), ?_, rfl⟩
      rw [List.mem_filter]
      refine ⟨mem_orient_iff.mpr hmem, ?_⟩
      unfold matchesAll
      rw [Bool.and_eq_true]
      exact ⟨htr, matchesFilters_trivial e q hty htag⟩
  · intro id e hmem
    have h1 : ulidTime id = e.timestamp / 1000000 * 1000000 := by
      simpa using hts (id, e) hmem
    rw [deleteBefore_primary s t hWF]
    constructor
    · intro hnot
      by_contra hc
      apply hnot
      rw [List.mem_filter]
      refine ⟨hmem, ?_⟩
      have hge : ¬ulidTime id < t := by
        rw [h1]
        exact hc
      simpa using hge
    · intro hlt hmemf
      rw [List.mem_filter] at hmemf
      have hkeep := hmemf.2
      simp only [Bool.not_eq_eq_eq_not, Bool.not_true, decide_eq_false_iff_not] at hkeep
      apply hkeep
      show ulidTime id < t
      rw [h1]
      exact hlt

def c9Event : Event := ⟨2 ^ 80, 1500000, "m", [], []⟩

def c9Store : Store := ⟨[(2 ^ 80, c9Event)], [("m", 2 ^ 80)], []⟩

def c9Query : Query := ⟨some 1200000, none, [], [], 0, false⟩

theorem c9_identifier_time_witness :
    c9Event.timestamp = 1500000 ∧
    1200000 ≤ c9Event.timestamp ∧
    matchesTimeRange (2 ^ 80) c9Query = false ∧
    c9Store.query c9Query = [] ∧
    (2 ^ 80, c9Event) ∉ (deleteBefore c9Store 1200000).1.2.primary := by
  have hwf : StoreWF c9Store :=
    ⟨by decide, by decide, by decide, by decide, by decide, by decide, by decide, by decide⟩
  have hts : TimesConsistent c9Store := by unfold TimesConsistent; decide
  have h := c9_identifier_time c9Store c9Query 1200000 hwf hts
  have hmem : ((2 : Nat) ^ 80, c9Event) ∈ c9Store.primary := by simp [c9Store]
  refine ⟨rfl, by decide, ?_, rfl, ?_⟩
  · have hiff := h.1 (2 ^ 80) c9Event hmem
    rw [Bool.eq_false_iff]
    intro hcon
    have := (hiff.mp hcon).1 1200000 rfl
    revert this
    decide
  · exact (h.2.2 (2 ^ 80) c9Event hmem).mpr (by decide)

/-- The Crockford base32 alphabet of canonical ULID strings (no I, L, O,
U; in particular no `:` and no `=`). -/
def crockford : List Char :=
  ['0', '1', '2', '3', '4', '5', '6', '7', '8', '9', 'A', 'B', 'C', 'D',
   'E', 'F', 'G', 'H', 'J', 'K', 'M', 'N', 'P', 'Q', 'R', 'S', 'T', 'V',
   'W', 'X', 'Y', 'Z']

/-- Encoding of one base-32 digit. -/
def b32Char (d : Nat) : Char := crockford.getD d '0'

/-- The decode table of `ulid.Parse`: the digit of a character, `none` on
an invalid character. -/
def b32Val (c : Char) : Option Nat := crockford.indexOf? c

/-- Fixed-width big-endian base-32 digits of a number. -/
def toDigits : Nat → Nat → List Nat
  | 0, _ => []
  | l + 1, n => toDigits l (n / 32) ++ [n % 32]

/-- `ulid.ULID.String`: the canonical 26-character Crockford-base32
rendering of the 128-bit value (10 time chars + 16 entropy chars). -/
def ulidChars (id : Nat) : List Char := (toDigits 26 id).map b32Char

/-- The character-decoding loop of `ulid.ParseStrict`: every character must
be in the table. -/
def parseDigits : List Char → Option (List Nat)
  | [] => some []
  | c :: rest =>
    match b32Val c, parseDigits rest with
    | some d, some ds => some (d :: ds)
    | _, _ => none

/-- `ulid.ParseStrict`: exactly 26 characters, all valid, and no 128-bit
overflow (first character at most `'7'`, i.e. first digit below 8). -/
def parseUlidStrict (cs : List Char) : Option Nat :=
  if cs.length = 26 then
    match parseDigits cs with
    | none => none
    | some ds =>
      if 8 ≤ ds.headD 0 then none
      else some (ds.foldl (fun a d => a * 32 + d) 0)
  else none

/-- `encodeEventKey` (`keys.go`): `e:` + 26-char ULID. -/
def encodeEventKey (id : Nat) : List Char := ['e', ':'] ++ ulidChars id

/-- `decodeEventKey` (`keys.go`): length check, then strict-parse the key
past the prefix. -/
def decodeEventKey (key : List Char) : Option Nat :=
  if key.length < 28 then none else parseUlidStrict (key.drop 2)

/-- `encodeTypeIndexKey` (`keys.go`): `y:` + type + `:` + ULID. -/
def encodeTypeIndexKey (ty : String) (id : Nat) : List Char :=
  ['y', ':'] ++ ty.toList ++ [':'] ++ ulidChars id

/-- `decodeTypeIndexKey` (`keys.go`): strict-parse the trailing 26
characters. -/
def decodeTypeIndexKey (key : List Char) : Option Nat :=
  if key.length < 26 then none else parseUlidStrict (key.drop (key.length - 26))

/-- `encodeTagIndexKey` (`keys.go`): `t:` + key + `=` + value + `:` +
ULID. -/
def encodeTagIndexKey (k v : String) (id : Nat) : List Char :=
  ['t', ':'] ++ k.toList ++ ['='] ++ v.toList ++ [':'] ++ ulidChars id

/-- `decodeTagIndexKey` (`keys.go`): strict-parse the trailing 26
characters. -/
def decodeTagIndexKey (key : List Char) : Option Nat :=
  if key.length < 26 then none else parseUlidStrict (key.drop (key.length - 26))

theorem toDigits_length : ∀ (l n : Nat), (toDigits l n).length = l := by
  intro l
  induction l with
  | zero => intro n; rfl
  | succ l ih =>
    intro n
    show (toDigits l (n / 32) ++ [n % 32]).length = l + 1
    rw [List.length_append, ih]
    rfl

theorem toDigits_lt : ∀ (l n : Nat), ∀ d ∈ toDigits l n, d < 32 := by
  intro l
  induction l with
  | zero => intro n d hd; cases hd
  | succ l ih =>
    intro n d hd
    rcases List.mem_append.mp hd with h | h
    · exact ih (n / 32) d h
    · rw [List.mem_singleton] at h
      rw [h]
      exact Nat.mod_lt _ (by omega)

theorem b32Val_b32Char : ∀ d, d < 32 → b32Val (b32Char d) = some d := by decide

theorem parseDigits_map : ∀ ds : List Nat, (∀ d ∈ ds, d < 32) →
    parseDigits (ds.map b32Char) = some ds := by
  intro ds
  induction ds with
  | nil => intro _; rfl
  | cons d rest ih =>
    intro h
    show parseDigits (b32Char d :: rest.map b32Char) = _
    unfold parseDigits
    rw [b32Val_b32Char d (h d (List.mem_cons_self d rest)),
      ih fun x hx => h x (List.mem_cons_of_mem d hx)]

theorem digits_mod_step (n M : Nat) :
    n / 32 % M * 32 + n % 32 = n % (M * 32) := by
  have h1 := Nat.mod_mul_right_div_self n 32 M
  have h2 := Nat.div_add_mod (n % (32 * M)) 32
  have h3 : n % (32 * M) % 32 = n % 32 := Nat.mod_mod_of_dvd n ⟨M, rfl⟩
  rw [Nat.mul_comm M 32]
  omega

theorem toDigits_foldl : ∀ (l n a : Nat),
    (toDigits l n).foldl (fun a d => a * 32 + d) a = a * 32 ^ l + n % 32 ^ l := by
  intro l
  induction l with
  | zero =>
    intro n a
    show a = a * 1 + n % 1
    omega
  | succ l ih =>
    intro n a
    show ((toDigits l (n / 32) ++ [n % 32]).foldl (fun a d => a * 32 + d) a) = _
    rw [List.foldl_append, ih]
    show (a * 32 ^ l + n / 32 % 32 ^ l) * 32 + n % 32 = a * 32 ^ (l + 1) + n % 32 ^ (l + 1)
    have := digits_mod_step n (32 ^ l)
    rw [Nat.pow_succ]
    calc (a * 32 ^ l + n / 32 % 32 ^ l) * 32 + n % 32
        = a * (32 ^ l * 32) + (n / 32 % 32 ^ l * 32 + n % 32) := by ring
      _ = a * (32 ^ l * 32) + n % (32 ^ l * 32) := by rw [this]

theorem toDigits_succ_cons : ∀ (l n : Nat),
    ∃ ds, toDigits (l + 1) n = (n / 32 ^ l % 32) :: ds := by
  intro l
  induction l with
  | zero =>
    intro n
    exact ⟨[], by show toDigits 0 (n / 32) ++ [n % 32] = _; simp [toDigits]⟩
  | succ l ih =>
    intro n
    obtain ⟨ds, hds⟩ := ih (n / 32)
    refine ⟨ds ++ [n % 32], ?_⟩
    show toDigits (l + 1) (n / 32) ++ [n % 32] = _
    rw [hds, Nat.div_div_eq_div_mul, ← Nat.pow_succ']
    rfl

theorem parseUlidStrict_ulidChars (id : Nat) (h : id < 2 ^ 128) :
    parseUlidStrict (ulidChars id) = some id := by
  unfold parseUlidStrict ulidChars
  rw [if_pos (by rw [List.length_map, toDigits_length])]
  rw [parseDigits_map _ (toDigits_lt 26 id)]
  show (if 8 ≤ (toDigits 26 id).headD 0 then none
    else some ((toDigits 26 id).foldl (fun a d => a * 32 + d) 0)) = some id
  obtain ⟨ds, hds⟩ := toDigits_succ_cons 25 id
  have hhead : (toDigits 26 id).headD 0 = id / 32 ^ 25 % 32 := by
    rw [hds]
    rfl
  have hsmall : id / 32 ^ 25 < 8 := by
    have h32 : (32 : Nat) ^ 25 = 2 ^ 125 := by norm_num
    rw [h32]
    omega
  rw [if_neg (by rw [hhead, Nat.mod_eq_of_lt (by omega)]; omega)]
  rw [toDigits_foldl]
  have hlt : id < 32 ^ 26 := by
    have h32 : (32 : Nat) ^ 26 = 2 ^ 130 := by norm_num
    rw [h32]
    calc id < 2 ^ 128 := h
    _ ≤ 2 ^ 130 := by norm_num
  rw [Nat.mod_eq_of_lt hlt]
  norm_num

theorem ulidChars_length (id : Nat) : (ulidChars id).length = 26 := by
  unfold ulidChars
  rw [List.length_map, toDigits_length]

theorem b32Char_mem (d : Nat) : b32Char d ∈ crockford := by
  unfold b32Char
  rw [List.getD_eq_getElem?_getD]
  by_cases hd : d < crockford.length
  · rw [List.getElem?_eq_getElem hd]
    exact List.getElem_mem hd
  · rw [List.getElem?_eq_none (by omega)]
    decide

theorem crockford_no_delim : ∀ c ∈ crockford, c ≠ ':' ∧ c ≠ '=' := by decide

theorem ulidChars_no_delim (id : Nat) :
    ':' ∉ ulidChars id ∧ '=' ∉ ulidChars id := by
  refine ⟨fun hmem => ?_, fun hmem => ?_⟩
  · obtain ⟨d, _, hd⟩ := List.mem_map.mp hmem
    have hc := crockford_no_delim (b32Char d) (b32Char_mem d)
    rw [hd] at hc
    exact hc.1 rfl
  · obtain ⟨d, _, hd⟩ := List.mem_map.mp hmem
    have hc := crockford_no_delim (b32Char d) (b32Char_mem d)
    rw [hd] at hc
    exact hc.2 rfl

theorem ulidChars_inj {id₁ id₂ : Nat} (h₁ : id₁ < 2 ^ 128) (h₂ : id₂ < 2 ^ 128)
    (h : ulidChars id₁ = ulidChars id₂) : id₁ = id₂ := by
  have := parseUlidStrict_ulidChars id₁ h₁
  rw [h, parseUlidStrict_ulidChars id₂ h₂] at this
  exact (Option.some.inj this).symm

theorem append_delim_inj {d : Char} :
    ∀ {a₁ a₂ b₁ b₂ : List Char}, a₁ ++ d :: b₁ = a₂ ++ d :: b₂ →
      d ∉ a₁ → d ∉ a₂ → a₁ = a₂ ∧ b₁ = b₂ := by
  intro a₁
  induction a₁ with
  | nil =>
    intro a₂ b₁ b₂ h _ hd₂
    cases a₂ with
    | nil => exact ⟨rfl, by simpa using h⟩
    | cons x a₂ =>
      exfalso
      simp only [List.nil_append, List.cons_append, List.cons.injEq] at h
      exact hd₂ (h.1 ▸ List.mem_cons_self x a₂)
  | cons x a₁ ih =>
    intro a₂ b₁ b₂ h hd₁ hd₂
    cases a₂ with
    | nil =>
      exfalso
      simp only [List.nil_append, List.cons_append, List.cons.injEq] at h
      exact hd₁ (h.1.symm ▸ List.mem_cons_self x a₁)
    | cons y a₂ =>
      simp only [List.cons_append, List.cons.injEq] at h
      have hrest := ih h.2 (fun hm => hd₁ (List.mem_cons_of_mem x hm))
        (fun hm => hd₂ (List.mem_cons_of_mem y hm))
      exact ⟨by rw [h.1, hrest.1], hrest.2⟩

theorem decodeEventKey_encode (id : Nat) (h : id < 2 ^ 128) :
    decodeEventKey (encodeEventKey id) = some id := by
  unfold decodeEventKey encodeEventKey
  rw [if_neg (by simp [List.length_append, ulidChars_length])]
  have h2 : (2 : Nat) = (['e', ':'] : List Char).length := rfl
  rw [h2, List.drop_left]
  exact parseUlidStrict_ulidChars id h

theorem decodeTypeIndexKey_encode (ty : String) (id : Nat) (h : id < 2 ^ 128) :
    decodeTypeIndexKey (encodeTypeIndexKey ty id) = some id := by
  have hkey : encodeTypeIndexKey ty id =
      (['y', ':'] ++ ty.toList ++ [':']) ++ ulidChars id := by
    unfold encodeTypeIndexKey
    simp [List.append_assoc]
  unfold decodeTypeIndexKey
  rw [hkey]
  have hlen : ((['y', ':'] ++ ty.toList ++ [':']) ++ ulidChars id).length =
      (['y', ':'] ++ ty.toList ++ [':']).length + 26 := by
    rw [List.length_append, ulidChars_length]
  rw [if_neg (by omega)]
  have hdrop : ((['y', ':'] ++ ty.toList ++ [':']) ++ ulidChars id).length - 26 =
      (['y', ':'] ++ ty.toList ++ [':']).length := by omega
  rw [hdrop, List.drop_left]
  exact parseUlidStrict_ulidChars id h

theorem decodeTagIndexKey_encode (k v : String) (id : Nat) (h : id < 2 ^ 128) :
    decodeTagIndexKey (encodeTagIndexKey k v id) = some id := by
  have hkey : encodeTagIndexKey k v id =
      (['t', ':'] ++ k.toList ++ ['='] ++ v.toList ++ [':']) ++ ulidChars id := by
    unfold encodeTagIndexKey
    simp [List.append_assoc]
  unfold decodeTagIndexKey
  rw [hkey]
  have hlen : ((['t', ':'] ++ k.toList ++ ['='] ++ v.toList ++ [':']) ++ ulidChars id).length =
      (['t', ':'] ++ k.toList ++ ['='] ++ v.toList ++ [':']).length + 26 := by
    rw [List.length_append, ulidChars_length]
  rw [if_neg (by omega)]
  have hdrop : ((['t', ':'] ++ k.toList ++ ['='] ++ v.toList ++ [':']) ++ ulidChars id).length
      - 26 = (['t', ':'] ++ k.toList ++ ['='] ++ v.toList ++ [':']).length := by omega
  rw [hdrop, List.drop_left]
  exact parseUlidStrict_ulidChars id h

/-- Claim C5: each of the three key encoders is injective on its intended
inputs — identifiers below 2^128 in canonical form, and types, tag names,
and tag values free of the reserved delimiter bytes (`:` for types, `=`
and `:` for tag names, `:` for tag values), the stated assumption of the
key layout — and the corresponding decoder recovers the identifier from
every encoded key, so each encoder is a bijection onto its keyspace. -/
theorem c5_key_codec (id₁ id₂ : Nat) (h₁ : id₁ < 2 ^ 128) (h₂ : id₂ < 2 ^ 128)
    (ty₁ ty₂ k₁ k₂ v₁ v₂ : String)
    (hty₁ : ':' ∉ ty₁.toList) (hty₂ : ':' ∉ ty₂.toList)
    (hk₁c : ':' ∉ k₁.toList) (hk₁e : '=' ∉ k₁.toList)
    (hk₂c : ':' ∉ k₂.toList) (hk₂e : '=' ∉ k₂.toList)
    (hv₁ : ':' ∉ v₁.toList) (hv₂ : ':' ∉ v₂.toList) :
    (encodeEventKey id₁ = encodeEventKey id₂ → id₁ = id₂) ∧
    decodeEventKey (encodeEventKey id₁) = some id₁ ∧
    (encodeTypeIndexKey ty₁ id₁ = encodeTypeIndexKey ty₂ id₂ →
      ty₁ = ty₂ ∧ id₁ = id₂) ∧
    decodeTypeIndexKey (encodeTypeIndexKey ty₁ id₁) = some id₁ ∧
    (encodeTagIndexKey k₁ v₁ id₁ = encodeTagIndexKey k₂ v₂ id₂ →
      k₁ = k₂ ∧ v₁ = v₂ ∧ id₁ = id₂) ∧
    decodeTagIndexKey (encodeTagIndexKey k₁ v₁ id₁) = some id₁ := by
  refine ⟨?_, decodeEventKey_encode id₁ h₁, ?_, decodeTypeIndexKey_encode ty₁ id₁ h₁,
    ?_, decodeTagIndexKey_encode k₁ v₁ id₁ h₁⟩
  · intro h
    exact ulidChars_inj h₁ h₂ (List.append_cancel_left h)
  · intro h
    have h2 := h
    unfold encodeTypeIndexKey at h2
    simp only [List.append_assoc, List.cons_append, List.nil_append, List.singleton_append,
      List.cons.injEq, true_and] at h2
    obtain ⟨hty, hu⟩ := append_delim_inj h2 hty₁ hty₂
    exact ⟨String.ext hty, ulidChars_inj h₁ h₂ hu⟩
  · intro h
    have h2 := h
    unfold encodeTagIndexKey at h2
    simp only [List.append_assoc, List.cons_append, List.nil_append, List.singleton_append,
      List.cons.injEq, true_and] at h2
    obtain ⟨hk, hrest⟩ := append_delim_inj h2 hk₁e hk₂e
    obtain ⟨hv, hu⟩ := append_delim_inj hrest hv₁ hv₂
    exact ⟨String.ext hk, String.ext hv, ulidChars_inj h₁ h₂ hu⟩

theorem c5_key_codec_witness :
    decodeEventKey (encodeEventKey 5) = some 5 ∧
    decodeTypeIndexKey (encodeTypeIndexKey "request" 5) = some 5 ∧
    decodeTagIndexKey (encodeTagIndexKey "service" "api" 5) = some 5 ∧
    (encodeTagIndexKey "service" "api" 5 = encodeTagIndexKey "service" "api" 7 →
      (5 : Nat) = 7) := by
  have h := c5_key_codec 5 7 (by norm_num) (by norm_num) "request" "request"
    "service" "service" "api" "api" (by decide) (by decide) (by decide) (by decide)
    (by decide) (by decide) (by decide) (by decide)
  exact ⟨h.2.1, h.2.2.2.1, h.2.2.2.2.2, fun he => (h.2.2.2.2.1 he).2.2⟩

/-- Aggregation kinds (`aggregation.go`). -/
inductive AggregationType where
  | count
  | sum
  | avg
  | min
  | max
  | p50
  | p95
  | p99
deriving DecidableEq, Repr

/-- `maxPercentileValues` (`aggregation.go`): the percentile buffer cap. -/
def maxPercentileValues : Nat := 1000000

/-- `AggregateResult` (`aggregation.go`); `float64` fields modelled as
exact rationals, the `int64` count as a natural. -/
structure AggregateResult where
  count : Nat
  sum : ℚ
  avg : ℚ
  min : ℚ
  max : ℚ
  p50 : ℚ
  p95 : ℚ
  p99 : ℚ

/-- `aggregator` (`aggregation.go`). -/
structure Aggregator where
  field : String
  needsPercentiles : Bool
  count : Nat
  sum : ℚ
  min : ℚ
  max : ℚ
  values : List ℚ

/-- `math.MaxFloat64`, exactly: (2 − 2⁻⁵²)·2¹⁰²³. -/
def maxFloat64 : ℚ := (2 ^ 53 - 1) * 2 ^ 971

/-- `newAggregator` (`aggregation.go`): min/max start at the
±MaxFloat64 sentinels. -/
def newAggregator (field : String) (needsPercentiles : Bool) : Aggregator :=
  ⟨field, needsPercentiles, 0, 0, maxFloat64, -maxFloat64, []⟩

/-- `extractNumericValue` (`aggregation.go`): empty field is count-only
mode; otherwise look the field up in the payload and accept the numeric
variant (every Go numeric type widens to `Value.num`). -/
def extractNumericValue (e : Event) (field : String) : ℚ × Bool :=
  if field = "" then (0, true)
  else
    match (e.data.find? fun p => p.1 == field).map Prod.snd with
    | some (.num x) => (x, true)
    | _ => (0, false)

/-- `aggregator.add` (`aggregation.go`): skip events without the field;
update count/sum/min/max; buffer the value for percentiles, failing with
`ErrTooManyValues` at the cap. -/
def Aggregator.add (a : Aggregator) (e : Event) : Except SquidError Aggregator :=
  let r := extractNumericValue e a.field
  if !r.2 && !(a.field == "") then .ok a
  else
    let a1 := { a with count := a.count + 1 }
    if a.field == "" then .ok a1
    else
      let a2 := { a1 with sum := a1.sum + r.1,
                          min := if r.1 < a1.min then r.1 else a1.min,
                          max := if r.1 > a1.max then r.1 else a1.max }
      if a2.needsPercentiles then
        if a2.values.length ≥ maxPercentileValues then .error .tooManyValues
        else .ok { a2 with values := a2.values ++ [r.1] }
      else .ok a2

/-- Go's `int(float64)` conversion truncates toward zero. -/
def truncRat (x : ℚ) : Int := Int.tdiv x.num (x.den : Int)

/-- `percentile` (`aggregation.go`): linear interpolation between the
closest ranks of the sorted buffer. -/
def percentile (sorted : List ℚ) (p : ℚ) : ℚ :=
  if sorted.length = 0 then 0
  else if sorted.length = 1 then sorted.getD 0 0
  else
    let rank : ℚ := p * ((sorted.length : ℚ) - 1)
    let lower : Int := truncRat rank
    let upper : Int := lower + 1
    if upper ≥ (sorted.length : Int) then sorted.getD (sorted.length - 1) 0
    else
      let weight : ℚ := rank - (lower : ℚ)
      sorted.getD lower.toNat 0 * (1 - weight) + sorted.getD upper.toNat 0 * weight

/-- `aggregator.result` (`aggregation.go`): sum/avg/min/max only when
count is positive and a field was given; percentiles only when requested
and values were buffered; `sort.Float64s` is an ascending sort. -/
def Aggregator.result (a : Aggregator) : AggregateResult :=
  if a.count > 0 ∧ a.field ≠ "" then
    let sorted := a.values.mergeSort fun x y => decide (x ≤ y)
    ⟨a.count, a.sum, a.sum / (a.count : ℚ), a.min, a.max,
     if a.needsPercentiles ∧ a.values.length > 0 then percentile sorted (50 / 100) else 0,
     if a.needsPercentiles ∧ a.values.length > 0 then percentile sorted (95 / 100) else 0,
     if a.needsPercentiles ∧ a.values.length > 0 then percentile sorted (99 / 100) else 0⟩
  else ⟨a.count, 0, 0, 0, 0, 0, 0, 0⟩

/-- The percentile detection loop of `DB.Aggregate`. -/
def needsPercentilesOf (aggs : List AggregationType) : Bool :=
  aggs.any fun a => a == .p50 || a == .p95 || a == .p99

/-- `aggregateByIDs` (`aggregation.go`): fold `add` over the candidate
ids' records that pass the residual filters; the constant `ctx` flag
models an (un)cancelled context, checked each iteration and once more at
the end. -/
def aggregateByIDs (ctx : Bool) (s : Store) (q : Query) :
    Aggregator → List Nat → Except SquidError Aggregator
  | agg, [] => if ctx then .error .canceled else .ok agg
  | agg, id :: rest =>
    if ctx then .error .canceled
    else
      match getPrimary s id with
      | none => aggregateByIDs ctx s q agg rest
      | some e =>
        if matchesFilters e q then
          match agg.add e with
          | .error err => .error err
          | .ok a2 => aggregateByIDs ctx s q a2 rest
        else aggregateByIDs ctx s q agg rest

/-- `aggregateFullScan` (`aggregation.go`): same shape as the query full
scan, folding `add`, with the same early termination. -/
def aggregateFullScan (ctx : Bool) (q : Query) :
    Aggregator → List (Nat × Event) → Except SquidError Aggregator
  | agg, [] => if ctx then .error .canceled else .ok agg
  | agg, (id, e) :: rest =>
    if ctx then .error .canceled
    else if matchesTimeRange id q then
      if matchesFilters e q then
        match agg.add e with
        | .error err => .error err
        | .ok a2 => aggregateFullScan ctx q a2 rest
      else aggregateFullScan ctx q agg rest
    else
      if !q.descending && q.endTime.any (fun t => decide (t < ulidTime id)) then
        if ctx then .error .canceled else .ok agg
      else if q.descending && q.start.any (fun t => decide (ulidTime id < t)) then
        if ctx then .error .canceled else .ok agg
      else aggregateFullScan ctx q agg rest

/-- `DB.Aggregate` (`aggregation.go`): lifecycle and context checks,
percentile detection, then the planner-selected aggregation scan and
finalization. -/
def DB.Aggregate (db : DB) (ctx : Bool) (q : Squid.Query) (field : String)
    (aggs : List AggregationType) : Except SquidError AggregateResult :=
  if db.closed then .error .closed
  else if ctx then .error .canceled
  else
    let agg := newAggregator field (needsPercentilesOf aggs)
    match (match planQuery db.store q with
           | some ids => aggregateByIDs ctx db.store q agg ids
           | none => aggregateFullScan ctx q agg (orient q db.store.primary)) with
    | .error err => .error err
    | .ok a => .ok a.result

theorem truncRat_eq_floor {x : ℚ} (hx : 0 ≤ x) : truncRat x = ⌊x⌋ := by
  unfold truncRat
  rw [Rat.floor_def]
  exact Int.tdiv_eq_ediv (Rat.num_nonneg.mpr hx) (Int.ofNat_nonneg _)

/-- Claim C7: for two or more values and a percentile fraction in
{0.50, 0.95, 0.99}, `percentile` computes the spec's interpolation formula
`sorted[lower]·(1−weight) + sorted[lower+1]·weight` with
`rank = p·(n−1)`, `lower = ⌊rank⌋`, `weight = rank − lower`; a
single-element buffer yields that element, and an empty buffer yields
zero.  (Float arithmetic is modelled exactly over ℚ; Go's `int(rank)`
truncation coincides with the floor for these non-negative ranks.) -/
theorem c7_percentile (sorted : List ℚ) (p : ℚ)
    (hp : p = 1 / 2 ∨ p = 95 / 100 ∨ p = 99 / 100) :
    (2 ≤ sorted.length →
      percentile sorted p =
        sorted.getD (⌊p * ((sorted.length : ℚ) - 1)⌋).toNat 0 *
            (1 - (p * ((sorted.length : ℚ) - 1) - ⌊p * ((sorted.length : ℚ) - 1)⌋)) +
          sorted.getD ((⌊p * ((sorted.length : ℚ) - 1)⌋).toNat + 1) 0 *
            (p * ((sorted.length : ℚ) - 1) - ⌊p * ((sorted.length : ℚ) - 1)⌋)) ∧
    (sorted.length = 1 → percentile sorted p = sorted.getD 0 0) ∧
    (sorted = [] → percentile sorted p = 0) := by
  have hp0 : 0 ≤ p := by rcases hp with h | h | h <;> rw [h] <;> norm_num
  have hp1 : p < 1 := by rcases hp with h | h | h <;> rw [h] <;> norm_num
  have hstep : percentile sorted p =
      (if sorted.length = 0 then 0
       else if sorted.length = 1 then sorted.getD 0 0
       else if (truncRat (p * ((sorted.length : ℚ) - 1)) + 1) ≥ (sorted.length : Int) then
         sorted.getD (sorted.length - 1) 0
       else
         sorted.getD (truncRat (p * ((sorted.length : ℚ) - 1))).toNat 0 *
             (1 - (p * ((sorted.length : ℚ) - 1) -
               (truncRat (p * ((sorted.length : ℚ) - 1)) : ℚ))) +
           sorted.getD (truncRat (p * ((sorted.length : ℚ) - 1)) + 1).toNat 0 *
             (p * ((sorted.length : ℚ) - 1) -
               (truncRat (p * ((sorted.length : ℚ) - 1)) : ℚ))) := rfl
  refine ⟨?_, ?_, ?_⟩
  · intro h2
    have hnpos : (0 : ℚ) < (sorted.length : ℚ) - 1 := by
      have : (2 : ℚ) ≤ (sorted.length : ℚ) := by exact_mod_cast h2
      linarith
    have hrank0 : 0 ≤ p * ((sorted.length : ℚ) - 1) := mul_nonneg hp0 (le_of_lt hnpos)
    have hranklt : p * ((sorted.length : ℚ) - 1) < (sorted.length : ℚ) - 1 := by
      calc p * ((sorted.length : ℚ) - 1) < 1 * ((sorted.length : ℚ) - 1) :=
            mul_lt_mul_of_pos_right hp1 hnpos
      _ = (sorted.length : ℚ) - 1 := one_mul _
    have hfl : ⌊p * ((sorted.length : ℚ) - 1)⌋ < (sorted.length : Int) - 1 := by
      rw [Int.floor_lt]
      push_cast
      exact hranklt
    have hfl0 : 0 ≤ ⌊p * ((sorted.length : ℚ) - 1)⌋ := Int.floor_nonneg.mpr hrank0
    rw [hstep, if_neg (by omega), if_neg (by omega), truncRat_eq_floor hrank0,
      if_neg (by omega)]
    have hup : (⌊p * ((sorted.length : ℚ) - 1)⌋ + 1).toNat =
        (⌊p * ((sorted.length : ℚ) - 1)⌋).toNat + 1 := by omega
    rw [hup]
  · intro h1
    rw [hstep, if_neg (by omega), if_pos h1]
  · intro hnil
    rw [hstep, if_pos (by rw [hnil]; rfl)]

theorem c7_percentile_witness :
    percentile [1, 2, 3] (1 / 2) = 2 ∧ percentile [5] (1 / 2) = 5 ∧
      percentile ([] : List ℚ) (1 / 2) = 0 := by
  refine ⟨?_, ?_, ?_⟩
  · rw [(c7_percentile [1, 2, 3] (1 / 2) (Or.inl rfl)).1 (by norm_num)]
    norm_num
  · rw [(c7_percentile [5] (1 / 2) (Or.inl rfl)).2.1 rfl]
    rfl
  · exact (c7_percentile ([] : List ℚ) (1 / 2) (Or.inl rfl)).2.2 rfl

theorem Aggregator.add_def (a : Aggregator) (e : Event) :
    a.add e =
      (if !(extractNumericValue e a.field).2 && !(a.field == "") then .ok a
       else if a.field == "" then .ok { a with count := a.count + 1 }
       else if a.needsPercentiles then
         if a.values.length ≥ maxPercentileValues then .error .tooManyValues
         else .ok { a with count := a.count + 1,
                           sum := a.sum + (extractNumericValue e a.field).1,
                           min := if (extractNumericValue e a.field).1 < a.min then
                             (extractNumericValue e a.field).1 else a.min,
                           max := if (extractNumericValue e a.field).1 > a.max then
                             (extractNumericValue e a.field).1 else a.max,
                           values := a.values ++ [(extractNumericValue e a.field).1] }
       else .ok { a with count := a.count + 1,
                         sum := a.sum + (extractNumericValue e a.field).1,
                         min := if (extractNumericValue e a.field).1 < a.min then
                           (extractNumericValue e a.field).1 else a.min,
                         max := if (extractNumericValue e a.field).1 > a.max then
                           (extractNumericValue e a.field).1 else a.max }) := rfl

theorem add_nonnum {a : Aggregator} {e : Event} (hf : a.field ≠ "")
    (h : (extractNumericValue e a.field).2 = false) : a.add e = .ok a := by
  rw [Aggregator.add_def]
  rw [if_pos (by simp [h, hf])]

theorem add_num_over {a : Aggregator} {e : Event} (hf : a.field ≠ "")
    (hperc : a.needsPercentiles = true)
    (hnum : (extractNumericValue e a.field).2 = true)
    (hcap : a.values.length ≥ maxPercentileValues) :
    a.add e = .error .tooManyValues := by
  rw [Aggregator.add_def]
  rw [if_neg (by simp [hnum]), if_neg (by simp [hf]), if_pos hperc, if_pos hcap]

theorem add_num_ok {a : Aggregator} {e : Event} (hf : a.field ≠ "")
    (hperc : a.needsPercentiles = true)
    (hnum : (extractNumericValue e a.field).2 = true)
    (hcap : a.values.length < maxPercentileValues) :
    ∃ a2, a.add e = .ok a2 ∧ a2.field = a.field ∧ a2.needsPercentiles = true ∧
      a2.values.length = a.values.length + 1 := by
  rw [Aggregator.add_def]
  rw [if_neg (by simp [hnum]), if_neg (by simp [hf]), if_pos hperc, if_neg (by omega)]
  exact ⟨_, rfl, rfl, hperc, by simp⟩

/-- The fold of `aggregator.add` over a scan's event sequence. -/
def addAll : Aggregator → List Event → Except SquidError Aggregator
  | agg, [] => .ok agg
  | agg, e :: rest =>
    match agg.add e with
    | .error err => .error err
    | .ok a2 => addAll a2 rest

/-- The events of a list that yield a numeric value for the field. -/
def numericCount (field : String) (evs : List Event) : Nat :=
  (evs.filter fun e => (extractNumericValue e field).2).length

theorem addAll_spec (field : String) (hf : field ≠ "") :
    ∀ (evs : List Event) (agg : Aggregator), agg.field = field →
      agg.needsPercentiles = true → agg.values.length ≤ maxPercentileValues →
      ((addAll agg evs = .error .tooManyValues ↔
          maxPercentileValues < agg.values.length + numericCount field evs) ∧
       (∀ err, addAll agg evs = .error err → err = .tooManyValues) ∧
       (∀ a2, addAll agg evs = .ok a2 →
          a2.values.length = agg.values.length + numericCount field evs)) := by
  intro evs
  induction evs with
  | nil =>
    intro agg hfa hperc hlen
    refine ⟨⟨fun h => Except.noConfusion h, fun h => ?_⟩,
      fun err h => Except.noConfusion h, fun a2 h => ?_⟩
    · exfalso
      simp only [numericCount, List.filter_nil, List.length_nil] at h
      omega
    · have ha : agg = a2 := Except.ok.inj h
      rw [← ha]
      simp [numericCount]
  | cons e rest ih =>
    intro agg hfa hperc hlen
    by_cases hnum : (extractNumericValue e field).2 = true
    · by_cases hcap : agg.values.length ≥ maxPercentileValues
      · have hadd : agg.add e = .error .tooManyValues :=
          add_num_over (by rw [hfa]; exact hf) hperc (by rw [hfa]; exact hnum) hcap
        have hcnt : numericCount field (e :: rest) = numericCount field rest + 1 := by
          simp only [numericCount]
          rw [List.filter_cons_of_pos (by exact hnum), List.length_cons]
        refine ⟨⟨fun _ => by omega, fun _ => ?_⟩, fun err h => ?_, fun a2 h => ?_⟩
        · show addAll agg (e :: rest) = _
          simp only [addAll, hadd]
        · simp only [addAll, hadd] at h
          exact (Except.error.inj h).symm
        · simp only [addAll, hadd] at h
          exact Except.noConfusion h
      · obtain ⟨a2, hadd, hf2, hp2, hl2⟩ :=
          add_num_ok (a := agg) (e := e) (by rw [hfa]; exact hf) hperc
            (by rw [hfa]; exact hnum) (by omega)
        have hih := ih a2 (hf2.trans hfa) hp2 (by omega)
        have hcnt : numericCount field (e :: rest) = numericCount field rest + 1 := by
          simp only [numericCount]
          rw [List.filter_cons_of_pos (by exact hnum), List.length_cons]
        have hstep : addAll agg (e :: rest) = addAll a2 rest := by
          simp only [addAll, hadd]
        refine ⟨⟨fun h => ?_, fun h => ?_⟩, fun err h => ?_, fun a3 h => ?_⟩
        · rw [hstep] at h
          have := hih.1.mp h
          omega
        · rw [hstep]
          exact hih.1.mpr (by omega)
        · rw [hstep] at h
          exact hih.2.1 err h
        · rw [hstep] at h
          have := hih.2.2 a3 h
          omega
    · have hnum' : (extractNumericValue e field).2 = false := by
        rwa [Bool.not_eq_true] at hnum
      have hadd : agg.add e = .ok agg :=
        add_nonnum (by rw [hfa]; exact hf) (by rw [hfa]; exact hnum')
      have hih := ih agg hfa hperc hlen
      have hcnt : numericCount field (e :: rest) = numericCount field rest := by
        simp only [numericCount]
        rw [List.filter_cons_of_neg (by exact hnum)]
      have hstep : addAll agg (e :: rest) = addAll agg rest := by
        simp only [addAll, hadd]
      refine ⟨⟨fun h => ?_, fun h => ?_⟩, fun err h => ?_, fun a3 h => ?_⟩
      · rw [hstep] at h
        have := hih.1.mp h
        omega
      · rw [hstep]
        exact hih.1.mpr (by omega)
      · rw [hstep] at h
        exact hih.2.1 err h
      · rw [hstep] at h
        have := hih.2.2 a3 h
        omega

theorem aggregateByIDs_eq_addAll (s : Store) (q : Squid.Query) :
    ∀ (ids : List Nat) (agg : Aggregator),
      aggregateByIDs false s q agg ids = addAll agg (candidateEvents s q ids) := by
  intro ids
  induction ids with
  | nil => intro agg; rfl
  | cons id rest ih =>
    intro agg
    cases hg : getPrimary s id with
    | none =>
      simp only [aggregateByIDs, candidateEvents, hg, Bool.false_eq_true, if_false]
      exact ih agg
    | some e =>
      by_cases hfq : matchesFilters e q
      · simp only [aggregateByIDs, candidateEvents, hg, hfq, if_true,
          Bool.false_eq_true, if_false, addAll]
        cases hadd : agg.add e with
        | error err => rfl
        | ok a2 => exact ih a2
      · simp only [aggregateByIDs, candidateEvents, hg, hfq, if_false,
          Bool.false_eq_true]
        exact ih agg

theorem aggregateFullScan_eq_addAll (q : Squid.Query) :
    ∀ (l : List (Nat × Event)) (agg : Aggregator),
      l.Pairwise (fun a b =>
        if q.descending then ulidTime b.1 ≤ ulidTime a.1
        else ulidTime a.1 ≤ ulidTime b.1) →
      aggregateFullScan false q agg l =
        addAll agg ((l.filter (matchesAll q)).map Prod.snd) := by
  intro l
  induction l with
  | nil => intro agg _; rfl
  | cons p rest ih =>
    obtain ⟨id, e⟩ := p
    intro agg hpw
    rw [List.pairwise_cons] at hpw
    obtain ⟨hhead, htail⟩ := hpw
    have hstep : aggregateFullScan false q agg ((id, e) :: rest) =
        (if matchesTimeRange id q then
          if matchesFilters e q then
            match agg.add e with
            | .error err => .error err
            | .ok a2 => aggregateFullScan false q a2 rest
          else aggregateFullScan false q agg rest
        else
          if !q.descending && q.endTime.any (fun t => decide (t < ulidTime id)) then .ok agg
          else if q.descending && q.start.any (fun t => decide (ulidTime id < t)) then .ok agg
          else aggregateFullScan false q agg rest) := rfl
    rw [hstep]
    by_cases hm : matchesTimeRange id q
    · rw [if_pos hm]
      by_cases hfq : matchesFilters e q
      · rw [if_pos hfq, List.filter_cons_of_pos (by simp [matchesAll, hm, hfq]),
          List.map_cons]
        show _ = addAll agg (e :: _)
        simp only [addAll]
        cases hadd : agg.add e with
        | error err => rfl
        | ok a2 => exact ih a2 htail
      · rw [if_neg hfq, List.filter_cons_of_neg (by simp [matchesAll, hm, hfq])]
        exact ih agg htail
    · rw [if_neg hm, List.filter_cons_of_neg (by simp [matchesAll, hm])]
      by_cases hb1 : (!q.descending && q.endTime.any fun t => decide (t < ulidTime id)) = true
      · rw [if_pos hb1, rest_filter_nil_of_break q id rest hhead (by rw [hb1]; rfl)]
        rfl
      · rw [if_neg hb1]
        by_cases hb2 : (q.descending && q.start.any fun t => decide (ulidTime id < t)) = true
        · rw [if_pos hb2, rest_filter_nil_of_break q id rest hhead (by rw [hb2]; simp)]
          rfl
        · rw [if_neg hb2]
          exact ih agg htail

/-- The event sequence an aggregation visits and folds, per scan path. -/
def visitedEvents (s : Store) (q : Squid.Query) : List Event :=
  match planQuery s q with
  | some ids => candidateEvents s q ids
  | none => ((orient q s.primary).filter (matchesAll q)).map Prod.snd

/-- Claim C6, amended: the 1,000,000-value cap governs the events the
aggregation scan actually visits, not all events matching the query's
predicates.  When an aggregation requests a percentile (P50, P95 or P99)
over a non-empty field, it fails with `ErrTooManyValues` exactly when the
visited events — on an index-driven plan, the candidates already
truncated at a positive `Limit` by `scanIndex`; on a full scan, every
record passing the predicates — yield more than 1,000,000 numeric
values; it succeeds whenever they yield at most that many, and the
buffer of a completed fold never exceeds 1,000,000 values.  The frozen
claim's quantification over matching events fails on the index-driven
path (see the counterexample): with `0 < Limit` such an aggregation can
succeed even though the matching events yield more than 1,000,000
numeric values. -/
theorem c6_percentile_cap (db : DB) (q : Squid.Query) (field : String)
    (aggs : List AggregationType) (hWF : StoreWF db.store)
    (hopen : db.closed = false) (hfield : field ≠ "")
    (hperc : needsPercentilesOf aggs = true) :
    (DB.Aggregate db false q field aggs = .error .tooManyValues ↔
      maxPercentileValues < numericCount field (visitedEvents db.store q)) ∧
    (numericCount field (visitedEvents db.store q) ≤ maxPercentileValues →
      ∃ r, DB.Aggregate db false q field aggs = .ok r) ∧
    (∀ a, addAll (newAggregator field true) (visitedEvents db.store q) = .ok a →
      a.values.length ≤ maxPercentileValues) := by
  have hagg : DB.Aggregate db false q field aggs =
      (match addAll (newAggregator field true) (visitedEvents db.store q) with
       | .error err => .error err
       | .ok a => .ok a.result) := by
    unfold DB.Aggregate
    rw [hopen]
    simp only [Bool.false_eq_true, if_false, hperc]
    unfold visitedEvents
    cases hplan : planQuery db.store q with
    | some ids =>
      simp only [aggregateByIDs_eq_addAll]
    | none =>
      simp only [aggregateFullScan_eq_addAll q _ _ (orient_primary_time db.store q hWF)]
  have hspec := addAll_spec field hfield (visitedEvents db.store q)
    (newAggregator field true) rfl rfl (Nat.zero_le _)
  have hlen0 : (newAggregator field true).values.length = 0 := rfl
  rw [hlen0, Nat.zero_add] at hspec
  refine ⟨?_, ?_, ?_⟩
  · rw [hagg]
    cases haa : addAll (newAggregator field true) (visitedEvents db.store q) with
    | error err =>
      have herr := hspec.2.1 err haa
      rw [herr] at haa
      constructor
      · intro _
        exact hspec.1.mp haa
      · intro _
        rw [herr]
    | ok a =>
      constructor
      · intro h
        exact Except.noConfusion h
      · intro h
        have := hspec.1.mpr h
        rw [haa] at this
        exact Except.noConfusion this
  · intro hle
    rw [hagg]
    cases haa : addAll (newAggregator field true) (visitedEvents db.store q) with
    | error err =>
      exfalso
      have herr := hspec.2.1 err haa
      rw [herr] at haa
      have := hspec.1.mp haa
      omega
    | ok a => exact ⟨a.result, rfl⟩
  · intro a haa
    have hlen := hspec.2.2 a haa
    by_contra hcon
    have : addAll (newAggregator field true) (visitedEvents db.store q) =
        .error .tooManyValues := hspec.1.mpr (by omega)
    rw [this] at haa
    exact Except.noConfusion haa

def c6Event1 : Event := ⟨0, 0, "m", [], [("v", .num 1)]⟩

def c6Event2 : Event := ⟨1, 0, "m", [], [("v", .num 2)]⟩

def c6DB : DB := ⟨⟨[(0, c6Event1), (1, c6Event2)], [("m", 0), ("m", 1)], []⟩, false⟩

def c6Query : Squid.Query := ⟨none, none, [], [], 0, false⟩

theorem c6_percentile_cap_witness :
    ∃ r, DB.Aggregate c6DB false c6Query "v" [.p95] = .ok r := by
  have hwf : StoreWF c6DB.store :=
    ⟨by decide, by decide, by decide, by decide, by decide, by decide, by decide, by decide⟩
  exact (c6_percentile_cap c6DB c6Query "v" [.p95] hwf rfl (by decide) rfl).2.1 (by decide)

/-- The store's records that satisfy every predicate of a query — the
events the query's criteria describe, independent of any scan path or
limit cut. -/
def matchingEvents (s : Store) (q : Squid.Query) : List Event :=
  (s.primary.filter (matchesAll q)).map Prod.snd

/-- One event per index position: type `"A"`, one numeric payload field. -/
def c6xEvent (i : Nat) : Event := ⟨i, 0, "A", [], [("v", .num 1)]⟩

/-- 1,000,001 primary records of type `"A"`, all carrying the numeric
field `"v"`. -/
def c6xPrim : List (Nat × Event) :=
  (List.range' 0 (maxPercentileValues + 1)).map fun i => (i, c6xEvent i)

/-- The matching type-index entries. -/
def c6xTypeIdx : List (String × Nat) :=
  (List.range' 0 (maxPercentileValues + 1)).map fun i => ("A", i)

def c6xStore : Store := ⟨c6xPrim, c6xTypeIdx, []⟩

def c6xDB : DB := ⟨c6xStore, false⟩

/-- A single-type query with `Limit = 1`, driving the type index. -/
def c6xQuery : Squid.Query := ⟨none, none, ["A"], [], 1, false⟩

theorem c6xPrim_eq :
    c6xPrim = (List.range' 0 (maxPercentileValues + 1)).map fun i => (i, c6xEvent i) :=
  rfl

theorem c6xTypeIdx_eq :
    c6xTypeIdx = (List.range' 0 (maxPercentileValues + 1)).map fun i => ("A", i) :=
  rfl

theorem c6xStore_wf : StoreWF c6xStore := by
  refine ⟨?_, ?_, ?_, ?_, ?_, ?_, ?_, ?_⟩
  · show c6xPrim.Pairwise fun a b => a.1 < b.1
    rw [c6xPrim_eq, List.pairwise_map]
    exact (List.pairwise_lt_range' 0 (maxPercentileValues + 1) 1).imp fun h => h
  · intro p hp
    have hp' : p ∈ c6xPrim := hp
    rw [c6xPrim_eq] at hp'
    obtain ⟨i, hi, rfl⟩ := List.mem_map.mp hp'
    rfl
  · show c6xTypeIdx.Pairwise fun a b => a.1 = b.1 → a.2 < b.2
    rw [c6xTypeIdx_eq, List.pairwise_map]
    refine List.Pairwise.imp ?_ (List.pairwise_lt_range' 0 (maxPercentileValues + 1) 1)
    intro a b h _
    exact h
  · exact List.Pairwise.nil
  · intro p hp
    have hp' : p ∈ c6xTypeIdx := hp
    rw [c6xTypeIdx_eq] at hp'
    obtain ⟨i, hi, rfl⟩ := List.mem_map.mp hp'
    rw [List.any_eq_true]
    have hmem : (i, c6xEvent i) ∈ c6xPrim := by
      rw [c6xPrim_eq]
      exact List.mem_map.mpr ⟨i, hi, rfl⟩
    exact ⟨(i, c6xEvent i), hmem, by simp [c6xEvent]⟩
  · intro p hp
    have hp' : p ∈ c6xPrim := hp
    rw [c6xPrim_eq] at hp'
    obtain ⟨i, hi, rfl⟩ := List.mem_map.mp hp'
    show (("A", i) : String × Nat) ∈ c6xStore.typeIdx
    show (("A", i) : String × Nat) ∈ c6xTypeIdx
    rw [c6xTypeIdx_eq]
    exact List.mem_map.mpr ⟨i, hi, rfl⟩
  · intro p hp
    exact absurd hp (List.not_mem_nil p)
  · intro p hp kv hkv
    have hp' : p ∈ c6xPrim := hp
    rw [c6xPrim_eq] at hp'
    obtain ⟨i, hi, rfl⟩ := List.mem_map.mp hp'
    exact absurd hkv (List.not_mem_nil kv)

theorem c6x_matching :
    matchingEvents c6xStore c6xQuery =
      (List.range' 0 (maxPercentileValues + 1)).map c6xEvent := by
  unfold matchingEvents
  show ((c6xPrim.filter (matchesAll c6xQuery)).map Prod.snd) = _
  rw [c6xPrim_eq]
  rw [show ((List.range' 0 (maxPercentileValues + 1)).map fun i =>
      (i, c6xEvent i)).filter (matchesAll c6xQuery) =
      (List.range' 0 (maxPercentileValues + 1)).map fun i => (i, c6xEvent i) from
    (List.filter_congr fun p hp => by
      obtain ⟨i, hi, rfl⟩ := List.mem_map.mp hp
      rfl).trans (List.filter_true _)]
  rw [List.map_map]
  exact List.map_congr_left fun i _ => rfl

theorem c6x_count :
    numericCount "v" (matchingEvents c6xStore c6xQuery) = maxPercentileValues + 1 := by
  rw [c6x_matching]
  unfold numericCount
  rw [show ((List.range' 0 (maxPercentileValues + 1)).map c6xEvent).filter
      (fun e => (extractNumericValue e "v").2) =
      (List.range' 0 (maxPercentileValues + 1)).map c6xEvent from
    (List.filter_congr fun e he => by
      obtain ⟨i, hi, rfl⟩ := List.mem_map.mp he
      rfl).trans (List.filter_true _)]
  rw [List.length_map, List.length_range']

theorem c6x_typeIds :
    typeIndexIds c6xStore "A" = List.range' 0 (maxPercentileValues + 1) := by
  unfold typeIndexIds
  show ((c6xTypeIdx.filter fun p => p.1 == "A").map Prod.snd) = _
  rw [c6xTypeIdx_eq, List.filter_map]
  rw [show (List.range' 0 (maxPercentileValues + 1)).filter
      ((fun (p : String × Nat) => p.1 == "A") ∘ fun i => ("A", i)) =
      List.range' 0 (maxPercentileValues + 1) from
    (List.filter_congr fun i _ => rfl).trans (List.filter_true _)]
  rw [List.map_map]
  exact (List.map_congr_left fun i _ => rfl).trans (List.map_id _)

theorem c6x_scan : scanTypeIndex c6xStore "A" c6xQuery = [0] := by
  unfold scanTypeIndex
  rw [show orient c6xQuery (typeIndexIds c6xStore "A") =
      List.range' 0 (maxPercentileValues + 1) from by rw [c6x_typeIds]; rfl]
  rw [scanIndexGo_eq_take c6xQuery (by decide) _ 0 (by decide)]
  rw [show (List.range' 0 (maxPercentileValues + 1)).filter
      (fun id => matchesTimeRange id c6xQuery) =
      List.range' 0 (maxPercentileValues + 1) from
    (List.filter_congr fun i _ => rfl).trans (List.filter_true _)]
  rw [show ((c6xQuery.limit - ((0 : Nat) : Int)).toNat) = 1 from rfl]
  rw [List.range'_succ]
  rfl

theorem c6x_plan : planQuery c6xStore c6xQuery = some [0] := by
  unfold planQuery
  rw [if_pos (show c6xQuery.types.length = 1 from rfl)]
  rw [show c6xQuery.types.headD "" = "A" from rfl]
  rw [c6x_scan]

theorem c6x_get : getPrimary c6xStore 0 = some (c6xEvent 0) := by
  unfold getPrimary
  show ((c6xPrim.find? fun p => p.1 == 0).map Prod.snd) = _
  rw [c6xPrim_eq, List.range'_succ, List.map_cons]
  rw [List.find?_cons_of_pos _ (by rfl)]
  rfl

theorem c6x_cand : candidateEvents c6xStore c6xQuery [0] = [c6xEvent 0] := by
  simp only [candidateEvents, c6x_get]
  rw [if_pos (show matchesFilters (c6xEvent 0) c6xQuery = true from rfl)]

theorem c6x_ok : ∃ r, DB.Aggregate c6xDB false c6xQuery "v" [.p95] = .ok r := by
  obtain ⟨a2, hadd, -, -, -⟩ := add_num_ok (a := newAggregator "v" true)
    (e := c6xEvent 0) (by decide) rfl rfl (by decide)
  refine ⟨a2.result, ?_⟩
  unfold DB.Aggregate
  rw [show c6xDB.closed = false from rfl]
  simp only [Bool.false_eq_true, if_false,
    show needsPercentilesOf [AggregationType.p95] = true from rfl]
  rw [show c6xDB.store = c6xStore from rfl, c6x_plan]
  show (match aggregateByIDs false c6xStore c6xQuery (newAggregator "v" true) [0] with
    | .error err => Except.error err
    | .ok a => Except.ok a.result) = Except.ok a2.result
  rw [aggregateByIDs_eq_addAll, c6x_cand]
  simp only [addAll, hadd]

/-- Claim C6 as frozen is false of the program: in this well-formed open
database, 1,000,001 events match every predicate of the query and each
yields a numeric value for the aggregated field, a percentile (P95) is
requested over a non-empty field, yet `Aggregate` succeeds rather than
failing with `ErrTooManyValues` — the query's positive `Limit` makes the
planner's index scan truncate the candidate ids to a single one before
the aggregation fold ever sees an event, so only one value is buffered. -/
theorem c6_counterexample :
    StoreWF c6xDB.store ∧ c6xDB.closed = false ∧
    ("v" : String) ≠ "" ∧ needsPercentilesOf [.p95] = true ∧
    maxPercentileValues < numericCount "v" (matchingEvents c6xDB.store c6xQuery) ∧
    DB.Aggregate c6xDB false c6xQuery "v" [.p95] ≠ .error .tooManyValues ∧
    ∃ r, DB.Aggregate c6xDB false c6xQuery "v" [.p95] = .ok r := by
  obtain ⟨r, hr⟩ := c6x_ok
  refine ⟨c6xStore_wf, rfl, by decide, rfl, ?_, ?_, ⟨r, hr⟩⟩
  · rw [show c6xDB.store = c6xStore from rfl, c6x_count]
    exact Nat.lt_succ_self _
  · rw [hr]
    exact fun h => Except.noConfusion h

/-- `ExportFormat` (`export.go`): a Go `int` with declared constants
`JSON = iota = 0` and `CSV = 1`; any other value is representable. -/
abbrev ExportFormat := Int

/-- The `JSON` format constant. -/
def JSON : ExportFormat := 0

/-- The `CSV` format constant. -/
def CSV : ExportFormat := 1

/-- Compact JSON rendering of a payload value (the `json.Marshal` default
branch of `formatDataValue`; string escaping is abstracted). -/
def renderJSONValue : Value → String
  | .str s => "\"" ++ s ++ "\""
  | .boolean b => if b then "true" else "false"
  | .num x => toString x
  | .null => "null"
  | .arr xs => "[" ++ String.intercalate "," (xs.attach.map fun v => renderJSONValue v.1) ++ "]"
  | .obj fs => "\x7b" ++ String.intercalate ","
      (fs.attach.map fun kv => "\"" ++ kv.1.1 ++ "\":" ++ renderJSONValue kv.1.2) ++ "\x7d"
decreasing_by
  · have h1 := List.sizeOf_lt_of_mem v.2
    simp only [Value.arr.sizeOf_spec]
    omega
  · have h1 := List.sizeOf_lt_of_mem kv.2
    rcases kv with ⟨⟨k, w⟩, hm⟩
    simp only [Prod.mk.sizeOf_spec] at h1
    simp only [Value.obj.sizeOf_spec]
    omega

/-- `formatDataValue` (`export.go`): empty for nil/absent, strings
verbatim, booleans as true/false, numbers in textual form (abstracted to
`toString` of the exact rational), compound values as compact JSON. -/
def formatDataValue : Option Value → String
  | none => ""
  | some .null => ""
  | some (.str s) => s
  | some (.boolean b) => if b then "true" else "false"
  | some (.num x) => toString x
  | some v => renderJSONValue v

/-- `collectKeys` over tags (`export.go`): the sorted union of tag keys
across the result. -/
def collectTagKeys (events : List Event) : List String :=
  ((events.foldl (fun acc e =>
      e.tags.foldl (fun acc kv => if kv.1 ∈ acc then acc else acc ++ [kv.1]) acc) []) :
    List String).mergeSort fun a b => decide (a ≤ b)

/-- `collectDataKeys` (`export.go`): the sorted union of payload keys. -/
def collectDataKeys (events : List Event) : List String :=
  ((events.foldl (fun acc e =>
      e.data.foldl (fun acc kv => if kv.1 ∈ acc then acc else acc ++ [kv.1]) acc) []) :
    List String).mergeSort fun a b => decide (a ≤ b)

/-- `buildCSVHeader` (`export.go`). -/
def buildCSVHeader (tagKeys dataKeys : List String) : List String :=
  ["id", "timestamp", "type"] ++ tagKeys.map ("tag_" ++ ·) ++
    dataKeys.map ("data_" ++ ·)

/-- `buildCSVRow` (`export.go`): id in canonical ULID form, the timestamp
in a textual form (RFC3339Nano rendering abstracted to the nanosecond
count), type, then tag and payload cells. -/
def buildCSVRow (e : Event) (tagKeys dataKeys : List String) : List String :=
  [String.mk (ulidChars e.id), toString e.timestamp, e.type] ++
    tagKeys.map (fun k => lookupTag e.tags k) ++
    dataKeys.map fun k =>
      formatDataValue ((e.data.find? fun p => p.1 == k).map Prod.snd)

/-- What an export emits: a JSON array of the result events, or a CSV
table, or zero bytes (empty CSV). -/
inductive ExportOutput where
  | jsonArray (events : List Event)
  | csvTable (header : List String) (rows : List (List String))
  | csvEmpty

/-- `exportJSON` (`export.go`): check the context once, then encode the
whole result as one JSON array. -/
def exportJSON (ctx : Bool) (events : List Event) : Except SquidError ExportOutput :=
  if ctx then .error .canceled else .ok (.jsonArray events)

/-- `exportCSV` (`export.go`): an empty result emits zero bytes (no
header); otherwise the header row and one row per event, with the
periodic context checks modelled by the constant flag. -/
def exportCSV (ctx : Bool) (events : List Event) : Except SquidError ExportOutput :=
  if events.isEmpty then .ok .csvEmpty
  else if ctx then .error .canceled
  else
    .ok (.csvTable (buildCSVHeader (collectTagKeys events) (collectDataKeys events))
      (events.map fun e => buildCSVRow e (collectTagKeys events) (collectDataKeys events)))

/-- `DB.Export` (`export.go`): lifecycle and context checks, run the
query, then switch on the format — `JSON` and `CSV` dispatch to their
writers and the `default` branch falls through to `exportJSON`. -/
def DB.Export (db : DB) (ctx : Bool) (q : Squid.Query) (format : ExportFormat) :
    Except SquidError ExportOutput :=
  if db.closed then .error .closed
  else if ctx then .error .canceled
  else
    let events := db.store.query q
    if format = JSON then exportJSON ctx events
    else if format = CSV then exportCSV ctx events
    else exportJSON ctx events

/-- Claim C10: for every `ExportFormat` value other than `JSON` and `CSV`,
`Export` behaves exactly like the `JSON` format — the switch's `default`
branch calls `exportJSON` — and in particular succeeds with the JSON
array of the query's events on an open handle with a live context,
rather than returning an unknown-format error. -/
theorem c10_unknown_format (db : DB) (ctx : Bool) (q : Squid.Query)
    (format : ExportFormat) (hf1 : format ≠ JSON) (hf2 : format ≠ CSV) :
    DB.Export db ctx q format = DB.Export db ctx q JSON ∧
    (db.closed = false → ctx = false →
      DB.Export db ctx q format = .ok (.jsonArray (db.store.query q))) := by
  constructor
  · unfold DB.Export
    by_cases hc : db.closed
    · rw [if_pos hc, if_pos hc]
    · rw [if_neg hc, if_neg hc]
      by_cases hctx : ctx = true
      · rw [if_pos hctx, if_pos hctx]
      · rw [if_neg hctx, if_neg hctx]
        rw [if_neg hf1, if_neg hf2, if_pos rfl]
  · intro hopen hctx
    unfold DB.Export
    rw [hopen, hctx]
    simp only [Bool.false_eq_true, if_false]
    rw [if_neg hf1, if_neg hf2]
    rfl

def c10Event : Event := ⟨0, 0, "m", [], []⟩

def c10DB : DB := ⟨⟨[(0, c10Event)], [("m", 0)], []⟩, false⟩

def c10Query : Squid.Query := ⟨none, none, [], [], 0, false⟩

theorem c10_unknown_format_witness :
    DB.Export c10DB false c10Query 2 = DB.Export c10DB false c10Query JSON ∧
    DB.Export c10DB false c10Query 2 =
      .ok (.jsonArray (c10DB.store.query c10Query)) := by
  have h := c10_unknown_format c10DB false c10Query 2 (by decide) (by decide)
  exact ⟨h.1, h.2 rfl rfl⟩

end Squid
